import Mathlib

/-!
Verification of the intrusive doubly-linked list of
`src/util/linked_list.h` (BerryDB).

The embedding models the validated build (`BERRYDB_CHECK_IS_ON()`):
nodes are addressed by natural-number ids, a heap maps ids to node
records, raw pointers become `Option NodeId` (with `none` playing the
role of `nullptr`), and a failed `BERRYDB_CHECK` / violated
`BERRYDB_ASSUME` makes an operation return `none` (the fatal path).
-/

namespace berrydb

/-- Address of a `LinkedListNode` object. -/
abbrev NodeId := Nat

/-- The fields of `LinkedListNode<Embedder>` in a validated build:
`next_`, `prev_`, and `list_sentinel_` (the third exists only when
`BERRYDB_CHECK_IS_ON()`). -/
structure LinkedListNode where
  next_ : Option NodeId
  prev_ : Option NodeId
  list_sentinel_ : Option NodeId
deriving Repr, DecidableEq

/-- The non-sentinel `LinkedListNode()` constructor: in a validated build
all three fields are nulled. -/
def detachedNode : LinkedListNode := ⟨none, none, none⟩

/-- The sentinel `LinkedListNode(SentinelNodeTag)` constructor at address
`self`: `next_`, `prev_` and `list_sentinel_` all point to the node itself. -/
def sentinelNode (self : NodeId) : LinkedListNode := ⟨some self, some self, some self⟩

/-- The part of program memory holding linked-list nodes. -/
def Heap := NodeId → LinkedListNode

/-- Store a whole node record at an address. -/
def hset (h : Heap) (i : NodeId) (nd : LinkedListNode) : Heap :=
  fun j => if j = i then nd else h j

/-- Assignment `i->next_ = v`. -/
def setNext (h : Heap) (i : NodeId) (v : Option NodeId) : Heap :=
  hset h i { h i with next_ := v }

/-- Assignment `i->prev_ = v`. -/
def setPrev (h : Heap) (i : NodeId) (v : Option NodeId) : Heap :=
  hset h i { h i with prev_ := v }

/-- Assignment `i->list_sentinel_ = v`. -/
def setSentinel (h : Heap) (i : NodeId) (v : Option NodeId) : Heap :=
  hset h i { h i with list_sentinel_ := v }

/-- The test `node->is_sentinel()`: `this == list_sentinel_`. -/
def isSentinel (h : Heap) (i : NodeId) : Bool :=
  (h i).list_sentinel_ = some i

/-- Member function `LinkedListNode::next()`.  Checks
`BERRYDB_CHECK(list_sentinel_ != nullptr)`, `BERRYDB_ASSUME(next_ != nullptr)`
and `BERRYDB_ASSUME_EQ(next_->prev_, this)`, then returns `next_`. -/
def nodeNext (h : Heap) (i : NodeId) : Option NodeId :=
  if (h i).list_sentinel_ = none then none
  else match (h i).next_ with
    | none => none
    | some nx => if (h nx).prev_ = some i then some nx else none

/-- Member function `LinkedListNode::prev()`.  Checks
`BERRYDB_CHECK(list_sentinel_ != nullptr)`, `BERRYDB_ASSUME(prev_ != nullptr)`
and `BERRYDB_ASSUME_EQ(prev_->next_, this)`, then returns `prev_`. -/
def nodePrev (h : Heap) (i : NodeId) : Option NodeId :=
  if (h i).list_sentinel_ = none then none
  else match (h i).prev_ with
    | none => none
    | some pv => if (h pv).next_ = some i then some pv else none

/-- Member function `LinkedListNode::InsertBefore(next)`, validated build,
translated statement by statement.  `v` is `this`, `t` is `next`. -/
def InsertBefore (h : Heap) (v t : NodeId) : Option Heap :=
  if (h v).list_sentinel_ = some v then none
  else if ¬ (h v).list_sentinel_ = none then none
  else if ¬ (h v).next_ = none then none
  else if ¬ (h v).prev_ = none then none
  else if (h t).list_sentinel_ = none then none
  else
    let h1 := setSentinel h v ((h t).list_sentinel_)
    match (h1 t).next_, (h1 t).prev_ with
    | some _, some p =>
      let h2 := setPrev h1 v (some p)
      let h3 := setNext h2 p (some v)
      let h4 := setNext h3 v (some t)
      some (setPrev h4 t (some v))
    | _, _ => none

/-- Member function `LinkedListNode::Remove()`, validated build, translated
statement by statement.  `v` is `this`. -/
def Remove (h : Heap) (v : NodeId) : Option Heap :=
  if (h v).list_sentinel_ = some v then none
  else if (h v).list_sentinel_ = none then none
  else
    let h1 := setSentinel h v none
    match (h1 v).next_, (h1 v).prev_ with
    | some nx, some _ =>
      let h2 := setPrev h1 nx ((h1 v).prev_)
      match (h2 v).prev_ with
      | some p2 =>
        let h3 := setNext h2 p2 ((h2 v).next_)
        let h4 := setNext h3 v none
        some (setPrev h4 v none)
      | none => none
    | _, _ => none

/-- The body of the relabelling loop in the sentinel move constructor
`LinkedListNode(LinkedListNode&&)`: walk the chain from `node` until
reaching `newS` (the new sentinel, `this`), checking each visited node and
rewriting its `list_sentinel_` from `oldS` to `newS`.  The loop is bounded
by explicit fuel; running out of fuel yields `none`. -/
def walkRelabel (newS oldS : NodeId) : Nat → Heap → NodeId → Option Heap
  | 0, _, _ => none
  | fuel+1, h, node =>
    if node = newS then some h
    else if (h node).list_sentinel_ = some node then none
    else if ¬ (h node).list_sentinel_ = some oldS then none
    else match (h node).next_, (h node).prev_ with
      | some nx, some _ =>
          walkRelabel newS oldS fuel (setSentinel h node (some newS)) nx
      | _, _ => none

/-- The sentinel move constructor `LinkedListNode(LinkedListNode&&)`:
constructs a sentinel at fresh address `newS` from the sentinel at `oldS`,
relinking the chain and (validated build) rewriting every member node's
back-reference via `walkRelabel`. -/
def moveSentinelNode (h : Heap) (newS oldS : NodeId) (fuel : Nat) : Option Heap :=
  let h0 := setSentinel h newS (some newS)
  if ¬ (h0 oldS).list_sentinel_ = some oldS then none
  else match nodeNext h0 oldS with
  | none => none
  | some n =>
    if n = oldS then
      some (setNext (setPrev h0 newS (some newS)) newS (some newS))
    else
      let h1 := setNext h0 newS ((h0 oldS).next_)
      let h2 := setNext h1 oldS (some oldS)
      let h3 := setPrev h2 newS ((h2 oldS).prev_)
      let h4 := setPrev h3 oldS (some oldS)
      match (h4 newS).next_, (h4 newS).prev_ with
      | some nx, some pv =>
        let h5 := setPrev h4 nx (some newS)
        let h6 := setNext h5 pv (some newS)
        match (h6 newS).next_ with
        | some start => walkRelabel newS oldS fuel h6 start
        | none => none
      | _, _ => none

/-- A `LinkedListBridge`: the stateless host-to-node address mapping.
Hosts are identified by natural numbers. -/
structure Bridge where
  nodeForHost : Nat → NodeId
  hostForNode : NodeId → Nat

/-- The default bridge of a host type whose node address coincides with the
host id (the `linked_list_node_` field at offset 0). -/
def defaultBridge : Bridge := ⟨fun v => v, fun n => n⟩

/-- The `LinkedList` object: address of its embedded sentinel node plus the
incrementally maintained `size_`. -/
structure LinkedList where
  sentinel_ : NodeId
  size_ : Nat
deriving Repr, DecidableEq

/-- Method `LinkedList::begin()`: `iterator{sentinel_.next()}`. -/
def beginIter (h : Heap) (lst : LinkedList) : Option NodeId :=
  nodeNext h lst.sentinel_

/-- Method `LinkedList::end()`: `iterator{&sentinel_}`. -/
def endIter (lst : LinkedList) : NodeId :=
  lst.sentinel_

/-- Method `LinkedList::empty()`: `sentinel_.next() == &sentinel_`. -/
def emptyB (h : Heap) (lst : LinkedList) : Option Bool :=
  (nodeNext h lst.sentinel_).map (fun n => decide (n = lst.sentinel_))

/-- Iterator `operator++`: checks `!node_->is_sentinel()` then moves to
`node_->next()`. -/
def incIter (h : Heap) (i : NodeId) : Option NodeId :=
  if (h i).list_sentinel_ = some i then none else nodeNext h i

/-- Iterator `operator--`: checks `!node_->prev()->is_sentinel()` then moves
to `node_->prev()`. -/
def decIter (h : Heap) (i : NodeId) : Option NodeId :=
  match nodePrev h i with
  | none => none
  | some p => if (h p).list_sentinel_ = some p then none else some p

/-- Iterator `operator*`: `Bridge::HostForNode(node_)`; the default bridge
checks `!node->is_sentinel()` before translating the address. -/
def iterDeref (B : Bridge) (h : Heap) (i : NodeId) : Option Nat :=
  if (h i).list_sentinel_ = some i then none else some (B.hostForNode i)

/-- Method `LinkedList::insert(pos, value)`: translates `value` to its node
through the bridge (`BERRYDB_ASSUME_EQ(value, Bridge::HostForNode(node))`),
splices it in with `InsertBefore`, and increments `size_`. -/
def insert (B : Bridge) (h : Heap) (lst : LinkedList) (pos : NodeId) (value : Nat) :
    Option (Heap × LinkedList) :=
  let node := B.nodeForHost value
  if ¬ B.hostForNode node = value then none
  else (InsertBefore h node pos).map (fun h' => (h', ⟨lst.sentinel_, lst.size_ + 1⟩))

/-- Method `LinkedList::erase(iterator pos)`: checks
`!node->is_sentinel()` and `&sentinel_ == node->list_sentinel_`, calls
`node->Remove()`, checks `size_ > 0` and decrements `size_`. -/
def eraseIter (h : Heap) (lst : LinkedList) (pos : NodeId) : Option (Heap × LinkedList) :=
  if (h pos).list_sentinel_ = some pos then none
  else if ¬ (h pos).list_sentinel_ = some lst.sentinel_ then none
  else match Remove h pos with
    | none => none
    | some h' =>
      if lst.size_ = 0 then none
      else some (h', ⟨lst.sentinel_, lst.size_ - 1⟩)

/-- Method `LinkedList::erase(value_type value)`: like `erase(pos)` with the
node obtained from the bridge. -/
def eraseValue (B : Bridge) (h : Heap) (lst : LinkedList) (value : Nat) :
    Option (Heap × LinkedList) :=
  let node := B.nodeForHost value
  if (h node).list_sentinel_ = some node then none
  else if ¬ (h node).list_sentinel_ = some lst.sentinel_ then none
  else match Remove h node with
    | none => none
    | some h' =>
      if lst.size_ = 0 then none
      else some (h', ⟨lst.sentinel_, lst.size_ - 1⟩)

/-- Method `LinkedList::push_front(value)`: `insert(begin(), value)`. -/
def push_front (B : Bridge) (h : Heap) (lst : LinkedList) (value : Nat) :
    Option (Heap × LinkedList) :=
  match beginIter h lst with
  | none => none
  | some b => insert B h lst b value

/-- Method `LinkedList::push_back(value)`: `insert(end(), value)`. -/
def push_back (B : Bridge) (h : Heap) (lst : LinkedList) (value : Nat) :
    Option (Heap × LinkedList) :=
  insert B h lst (endIter lst) value

/-- Method `LinkedList::pop_front()`: `erase(begin())`. -/
def pop_front (h : Heap) (lst : LinkedList) : Option (Heap × LinkedList) :=
  match beginIter h lst with
  | none => none
  | some b => eraseIter h lst b

/-- Method `LinkedList::pop_back()`: `erase(--end())`. -/
def pop_back (h : Heap) (lst : LinkedList) : Option (Heap × LinkedList) :=
  match decIter h (endIter lst) with
  | none => none
  | some p => eraseIter h lst p

/-- The `LinkedList` move constructor: moves the sentinel node (to a fresh
address `newS`), copies `size_`, and zeroes the source's `size_`.  Returns
the new heap, the new list, and the moved-from list. -/
def moveList (h : Heap) (lst : LinkedList) (newS : NodeId) (fuel : Nat) :
    Option (Heap × LinkedList × LinkedList) :=
  (moveSentinelNode h newS lst.sentinel_ fuel).map
    (fun h' => (h', ⟨newS, lst.size_⟩, ⟨lst.sentinel_, 0⟩))

/-- Forward iteration: starting at position `cur`, repeatedly dereference
and increment until position `stop` (the list's `end()`), collecting the
host values.  Fuel-bounded. -/
def traverseFwd (B : Bridge) (h : Heap) : Nat → NodeId → NodeId → Option (List Nat)
  | 0, _, _ => none
  | fuel+1, cur, stop =>
    if cur = stop then some []
    else match iterDeref B h cur, incIter h cur with
      | some v, some nx =>
        (traverseFwd B h fuel nx stop).map (fun rest => v :: rest)
      | _, _ => none

/-- Backward iteration: starting at position `cur` (the last element),
repeatedly dereference and decrement until reaching position `first`
(the list's `begin()`), collecting the host values in visit order. -/
def traverseBwd (B : Bridge) (h : Heap) : Nat → NodeId → NodeId → Option (List Nat)
  | 0, _, _ => none
  | fuel+1, cur, first =>
    match iterDeref B h cur with
    | none => none
    | some v =>
      if cur = first then some [v]
      else match decIter h cur with
        | none => none
        | some p => (traverseBwd B h fuel p first).map (fun rest => v :: rest)

/-- Number of nodes of `univ` currently attached to some list
(validated build: `list_sentinel_` is non-null exactly while attached). -/
def attachedCount (h : Heap) (univ : List NodeId) : Nat :=
  (univ.filter (fun n => !((h n).list_sentinel_ = none : Bool))).length

end berrydb

namespace berrydb

/-! ### The representation invariant -/

/-- Adjacency in a chain: `a`'s successor pointer names `b` and `b`'s
predecessor pointer names `a`. -/
def link (h : Heap) (a b : NodeId) : Prop :=
  (h a).next_ = some b ∧ (h b).prev_ = some a

instance decLink (h : Heap) : DecidableRel (link h) := fun a b =>
  inferInstanceAs (Decidable ((h a).next_ = some b ∧ (h b).prev_ = some a))

/-- Forward-only adjacency (what the relabelling walk of the move
constructor follows). -/
def nlink (h : Heap) (a b : NodeId) : Prop :=
  (h a).next_ = some b

instance decNlink (h : Heap) : DecidableRel (nlink h) := fun a b =>
  inferInstanceAs (Decidable ((h a).next_ = some b))

/-- Executable chain check used to give `List.Chain'` a kernel-reducible
decision procedure over node ids. -/
def chainB (R : NodeId → NodeId → Prop) [DecidableRel R] : List NodeId → Bool
  | [] => true
  | [_] => true
  | a :: b :: t => decide (R a b) && chainB R (b :: t)

theorem chainB_iff_chain' (R : NodeId → NodeId → Prop) [DecidableRel R] :
    ∀ l : List NodeId, chainB R l = true ↔ List.Chain' R l
  | [] => by simp [chainB]
  | [a] => by simp [chainB]
  | a :: b :: t => by
    rw [List.chain'_cons, chainB, Bool.and_eq_true, decide_eq_true_iff]
    exact and_congr Iff.rfl (chainB_iff_chain' R (b :: t))

instance (priority := 2000) decChainOfChainB (R : NodeId → NodeId → Prop)
    [DecidableRel R] (l : List NodeId) : Decidable (List.Chain' R l) :=
  decidable_of_iff (chainB R l = true) (chainB_iff_chain' R l)

/-- The invariant of a list whose sentinel lives at `s` and whose attached
member nodes are `ns`, first to last: all addresses are distinct, the
sentinel's back-reference is itself, every member's back-reference is the
sentinel, and the circular chain `s, ns…, s` is doubly linked. -/
def chainOk (h : Heap) (s : NodeId) (ns : List NodeId) : Prop :=
  (s :: ns).Nodup ∧
  (h s).list_sentinel_ = some s ∧
  (∀ n ∈ ns, (h n).list_sentinel_ = some s) ∧
  List.Chain' (link h) (s :: ns ++ [s])

instance decChainOk (h : Heap) (s : NodeId) (ns : List NodeId) :
    Decidable (chainOk h s ns) :=
  inferInstanceAs (Decidable ((s :: ns).Nodup ∧
    (h s).list_sentinel_ = some s ∧
    (∀ n ∈ ns, (h n).list_sentinel_ = some s) ∧
    List.Chain' (link h) (s :: ns ++ [s])))

/-! ### Heap update laws -/

theorem hset_self (h : Heap) (i : NodeId) (nd : LinkedListNode) : hset h i nd i = nd := by
  simp [hset]

theorem hset_other (h : Heap) (i j : NodeId) (nd : LinkedListNode) (hne : j ≠ i) :
    hset h i nd j = h j := by
  simp [hset, hne]

/-! ### Closed forms for the two pointer-surgery primitives -/

/-- The heap produced by a successful `InsertBefore` of detached node `v`
before attached node `t`, where `p` is `t`'s old predecessor and `s` the
list sentinel: `v` gets all three fields set, `p.next_` and `t.prev_` are
redirected to `v`, every other node is untouched. -/
def insAfterHeap (h : Heap) (v t p s : NodeId) : Heap := fun n =>
  if n = v then ⟨some t, some p, some s⟩
  else
    let b1 := h n
    let b2 := if n = p then { b1 with next_ := some v } else b1
    if n = t then { b2 with prev_ := some v } else b2

/-- The heap produced by a successful `Remove` of attached node `v` whose
successor is `nx` and predecessor is `pv`: `v` is fully nulled, `nx.prev_`
and `pv.next_` are linked around it, every other node is untouched. -/
def removedHeap (h : Heap) (v nx pv : NodeId) : Heap := fun n =>
  if n = v then detachedNode
  else
    let b1 := h n
    let b2 := if n = nx then { b1 with prev_ := some pv } else b1
    if n = pv then { b2 with next_ := some nx } else b2

theorem InsertBefore_eq (h : Heap) (v t p s nt : NodeId)
    (hv : h v = detachedNode) (hvt : v ≠ t) (hvp : v ≠ p)
    (hts : (h t).list_sentinel_ = some s)
    (htn : (h t).next_ = some nt) (htp : (h t).prev_ = some p) :
    InsertBefore h v t = some (insAfterHeap h v t p s) := by
  have hvt' : t ≠ v := fun e => hvt e.symm
  have hvp' : p ≠ v := fun e => hvp e.symm
  have hA : ¬ (h v).list_sentinel_ = some v := by rw [hv]; simp [detachedNode]
  have hB : (h v).list_sentinel_ = none := by rw [hv]; rfl
  have hC : (h v).next_ = none := by rw [hv]; rfl
  have hD : (h v).prev_ = none := by rw [hv]; rfl
  have hE : ¬ (h t).list_sentinel_ = none := by rw [hts]; simp
  have e1 : (setSentinel h v (some s) t).next_ = some nt := by
    simp [setSentinel, hset, hvt', htn]
  have e2 : (setSentinel h v (some s) t).prev_ = some p := by
    simp [setSentinel, hset, hvt', htp]
  unfold InsertBefore
  rw [if_neg hA, if_neg (fun hc => hc hB), if_neg (fun hc => hc hC),
    if_neg (fun hc => hc hD), if_neg hE]
  simp only [hts, e1, e2]
  apply congrArg
  funext n
  by_cases hnv : n = v
  · subst hnv
    simp [insAfterHeap, setPrev, setNext, setSentinel, hset, hvt, hvp, hvt', hvp', hv,
      detachedNode]
  · by_cases hnt : n = t
    · subst hnt
      by_cases hnp : n = p
      · subst hnp
        simp [insAfterHeap, setPrev, setNext, setSentinel, hset, hvt', hnv]
      · simp [insAfterHeap, setPrev, setNext, setSentinel, hset, hvt', hnv, hnp]
    · by_cases hnp : n = p
      · subst hnp
        simp [insAfterHeap, setPrev, setNext, setSentinel, hset, hnv, hnt]
      · simp [insAfterHeap, setPrev, setNext, setSentinel, hset, hnv, hnt, hnp]

theorem Remove_eq (h : Heap) (v s nx pv : NodeId)
    (hvs : (h v).list_sentinel_ = some s) (hsv : ¬ s = v)
    (hn : (h v).next_ = some nx) (hp : (h v).prev_ = some pv)
    (hnxv : nx ≠ v) (hpvv : pv ≠ v) :
    Remove h v = some (removedHeap h v nx pv) := by
  have hA : ¬ (h v).list_sentinel_ = some v := by
    rw [hvs]; intro e; exact hsv (by injection e)
  have hB : ¬ (h v).list_sentinel_ = none := by rw [hvs]; simp
  have e1 : (setSentinel h v none v).next_ = some nx := by
    simp [setSentinel, hset, hn]
  have e2 : (setSentinel h v none v).prev_ = some pv := by
    simp [setSentinel, hset, hp]
  have e3 : (setPrev (setSentinel h v none) nx (some pv) v).prev_ = some pv := by
    simp [setPrev, setSentinel, hset, hnxv.symm, hp]
  have e4 : (setPrev (setSentinel h v none) nx (some pv) v).next_ = some nx := by
    by_cases hx : v = nx
    · exact absurd hx.symm hnxv
    · simp [setPrev, setSentinel, hset, hx, hn]
  unfold Remove
  rw [if_neg hA, if_neg hB]
  simp only [e1, e2, e3, e4]
  apply congrArg
  funext n
  by_cases hnv : n = v
  · subst hnv
    simp [removedHeap, setPrev, setNext, setSentinel, hset, hnxv.symm, hpvv.symm, detachedNode]
  · by_cases hnx : n = nx
    · subst hnx
      by_cases hxp : n = pv
      · subst hxp
        simp [removedHeap, setPrev, setNext, setSentinel, hset, hnv]
      · simp [removedHeap, setPrev, setNext, setSentinel, hset, hnv, hxp]
    · by_cases hxp : n = pv
      · subst hxp
        simp [removedHeap, setPrev, setNext, setSentinel, hset, hnv, hnx]
      · simp [removedHeap, setPrev, setNext, setSentinel, hset, hnv, hnx, hxp]

end berrydb

namespace berrydb

/-! ### Chain reasoning helpers -/

theorem chain'_link_mono {h h' : Heap} :
    ∀ (l : List NodeId),
      (∀ a ∈ l.dropLast, (h' a).next_ = (h a).next_) →
      (∀ b ∈ l.tail, (h' b).prev_ = (h b).prev_) →
      List.Chain' (link h) l → List.Chain' (link h') l
  | [], _, _, _ => List.chain'_nil
  | [a], _, _, _ => List.chain'_singleton a
  | a :: b :: t, hn, hp, hc => by
    rw [List.chain'_cons] at hc ⊢
    refine ⟨⟨?_, ?_⟩, ?_⟩
    · rw [hn a (by rw [List.dropLast_cons₂]; exact List.mem_cons_self a _)]
      exact hc.1.1
    · rw [hp b (List.mem_cons_self b t)]
      exact hc.1.2
    · refine chain'_link_mono (b :: t)
        (fun x hx => hn x ?_) (fun x hx => hp x (List.mem_cons_of_mem b hx)) hc.2
      rw [List.dropLast_cons₂]
      exact List.mem_cons_of_mem a hx

theorem chain'_next_total {h : Heap} :
    ∀ (l : List NodeId), List.Chain' (link h) l →
      ∀ x ∈ l.dropLast, ∃ c, (h x).next_ = some c
  | [], _, x, hx => by simp at hx
  | [a], _, x, hx => by simp at hx
  | a :: b :: t, hc, x, hx => by
    rw [List.chain'_cons] at hc
    rw [List.dropLast_cons₂] at hx
    rcases List.mem_cons.mp hx with e | e
    · exact e ▸ ⟨b, hc.1.1⟩
    · exact chain'_next_total (b :: t) hc.2 x e

theorem chain'_prev_total {h : Heap} :
    ∀ (l : List NodeId), List.Chain' (link h) l →
      ∀ x ∈ l.tail, ∃ c, (h x).prev_ = some c
  | [], _, x, hx => by simp at hx
  | [a], _, x, hx => by simp at hx
  | a :: b :: t, hc, x, hx => by
    rw [List.chain'_cons] at hc
    rcases List.mem_cons.mp hx with e | e
    · exact e ▸ ⟨a, hc.1.2⟩
    · exact chain'_prev_total (b :: t) hc.2 x e

theorem head?_append_singleton (r : List NodeId) (s : NodeId) :
    (r ++ [s]).head? = some (r.headD s) := by
  cases r <;> simp

theorem headD_mem_cons (r : List NodeId) (s : NodeId) : r.headD s ∈ s :: r := by
  cases r with
  | nil => exact List.mem_cons_self s []
  | cons c r' => exact List.mem_cons_of_mem s (by simp)

theorem getLast_not_mem_dropLast (l : List NodeId) (hne : l ≠ []) (hd : l.Nodup) :
    l.getLast hne ∉ l.dropLast := by
  intro hmem
  have hd2 : (l.dropLast ++ [l.getLast hne]).Nodup := by
    rw [List.dropLast_append_getLast hne]; exact hd
  rcases List.nodup_append.mp hd2 with ⟨-, -, hdisj⟩
  exact hdisj hmem (by simp)

/-! ### Field-evaluation lemmas for the two surgery closed forms -/

theorem insAfterHeap_at_v (h : Heap) (v t p s : NodeId) :
    insAfterHeap h v t p s v = ⟨some t, some p, some s⟩ := by
  simp [insAfterHeap]

theorem insAfterHeap_next_p (h : Heap) (v t p s : NodeId) (hpv : p ≠ v) :
    (insAfterHeap h v t p s p).next_ = some v := by
  by_cases e : p = t
  · subst e; simp [insAfterHeap, hpv]
  · simp [insAfterHeap, hpv, e]

theorem insAfterHeap_prev_t (h : Heap) (v t p s : NodeId) (htv : t ≠ v) :
    (insAfterHeap h v t p s t).prev_ = some v := by
  by_cases e : t = p
  · subst e; simp [insAfterHeap, htv]
  · simp [insAfterHeap, htv, e]

theorem insAfterHeap_next_of_ne (h : Heap) (v t p s n : NodeId)
    (h1 : n ≠ v) (h2 : n ≠ p) : (insAfterHeap h v t p s n).next_ = (h n).next_ := by
  by_cases e : n = t
  · subst e; simp [insAfterHeap, h1, h2]
  · simp [insAfterHeap, h1, h2, e]

theorem insAfterHeap_prev_of_ne (h : Heap) (v t p s n : NodeId)
    (h1 : n ≠ v) (h2 : n ≠ t) : (insAfterHeap h v t p s n).prev_ = (h n).prev_ := by
  by_cases e : n = p
  · subst e; simp [insAfterHeap, h1, h2]
  · simp [insAfterHeap, h1, h2, e]

theorem insAfterHeap_sentinel_of_ne (h : Heap) (v t p s n : NodeId) (h1 : n ≠ v) :
    (insAfterHeap h v t p s n).list_sentinel_ = (h n).list_sentinel_ := by
  by_cases e1 : n = p
  · subst e1
    by_cases e2 : n = t
    · subst e2; simp [insAfterHeap, h1]
    · simp [insAfterHeap, h1, e2]
  · by_cases e2 : n = t
    · subst e2; simp [insAfterHeap, h1, e1]
    · simp [insAfterHeap, h1, e1, e2]

theorem insAfterHeap_frame (h : Heap) (v t p s n : NodeId)
    (h1 : n ≠ v) (h2 : n ≠ t) (h3 : n ≠ p) : insAfterHeap h v t p s n = h n := by
  simp [insAfterHeap, h1, h2, h3]

theorem removedHeap_at_v (h : Heap) (v nx pv : NodeId) :
    removedHeap h v nx pv v = detachedNode := by
  simp [removedHeap]

theorem removedHeap_prev_nx (h : Heap) (v nx pv : NodeId) (hn : nx ≠ v) :
    (removedHeap h v nx pv nx).prev_ = some pv := by
  by_cases e : nx = pv
  · subst e; simp [removedHeap, hn]
  · simp [removedHeap, hn, e]

theorem removedHeap_next_pv (h : Heap) (v nx pv : NodeId) (hp : pv ≠ v) :
    (removedHeap h v nx pv pv).next_ = some nx := by
  by_cases e : pv = nx
  · subst e; simp [removedHeap, hp]
  · simp [removedHeap, hp, e]

theorem removedHeap_next_of_ne (h : Heap) (v nx pv n : NodeId)
    (h1 : n ≠ v) (h2 : n ≠ pv) : (removedHeap h v nx pv n).next_ = (h n).next_ := by
  by_cases e : n = nx
  · subst e; simp [removedHeap, h1, h2]
  · simp [removedHeap, h1, h2, e]

theorem removedHeap_prev_of_ne (h : Heap) (v nx pv n : NodeId)
    (h1 : n ≠ v) (h2 : n ≠ nx) : (removedHeap h v nx pv n).prev_ = (h n).prev_ := by
  by_cases e : n = pv
  · subst e; simp [removedHeap, h1, h2]
  · simp [removedHeap, h1, h2, e]

theorem removedHeap_sentinel_of_ne (h : Heap) (v nx pv n : NodeId) (h1 : n ≠ v) :
    (removedHeap h v nx pv n).list_sentinel_ = (h n).list_sentinel_ := by
  by_cases e1 : n = nx
  · subst e1
    by_cases e2 : n = pv
    · subst e2; simp [removedHeap, h1]
    · simp [removedHeap, h1, e2]
  · by_cases e2 : n = pv
    · subst e2; simp [removedHeap, h1, e1]
    · simp [removedHeap, h1, e1, e2]

theorem removedHeap_frame (h : Heap) (v nx pv n : NodeId)
    (h1 : n ≠ v) (h2 : n ≠ nx) (h3 : n ≠ pv) : removedHeap h v nx pv n = h n := by
  simp [removedHeap, h1, h2, h3]

end berrydb

namespace berrydb

/-- Splicing a detached node `v` before the node at ring position given by
the split `ns = l ++ r` (before `r`'s head, or before the sentinel when
`r = []`) succeeds, produces exactly the `insAfterHeap` closed form, and
re-establishes the invariant with `v` between `l` and `r`. -/
theorem chainOk_insert (h : Heap) (s v : NodeId) (l r : List NodeId)
    (hc : chainOk h s (l ++ r)) (hv : h v = detachedNode) :
    InsertBefore h v (r.headD s) =
      some (insAfterHeap h v (r.headD s) ((s :: l).getLast (List.cons_ne_nil s l)) s) ∧
    chainOk (insAfterHeap h v (r.headD s) ((s :: l).getLast (List.cons_ne_nil s l)) s)
      s (l ++ v :: r) := by
  obtain ⟨hnd, hss, hmem, hch⟩ := hc
  set pos := r.headD s with hposdef
  set p := (s :: l).getLast (List.cons_ne_nil s l) with hpdef
  have hnds := hnd
  rw [List.nodup_cons] at hnds
  obtain ⟨hsnotin, hlr⟩ := hnds
  have hsl : s ∉ l := fun hx => hsnotin (List.mem_append.mpr (Or.inl hx))
  have hsr : s ∉ r := fun hx => hsnotin (List.mem_append.mpr (Or.inr hx))
  rw [List.nodup_append] at hlr
  obtain ⟨hlnd, hrnd, hdisj⟩ := hlr
  have hslnd : (s :: l).Nodup := by
    have h1 : ((s :: l) ++ r).Nodup := by simpa using hnd
    exact (List.nodup_append.mp h1).1
  have hvs : v ≠ s := by
    intro e
    rw [← e, hv] at hss
    simp [detachedNode] at hss
  have hvl : v ∉ l := by
    intro hx
    have h2 := hmem v (List.mem_append.mpr (Or.inl hx))
    rw [hv] at h2
    simp [detachedNode] at h2
  have hvr : v ∉ r := by
    intro hx
    have h2 := hmem v (List.mem_append.mpr (Or.inr hx))
    rw [hv] at h2
    simp [detachedNode] at h2
  have hpmem : p ∈ s :: l := hpdef ▸ List.getLast_mem (List.cons_ne_nil s l)
  have hposmem : pos ∈ s :: r := headD_mem_cons r s
  have hvp : v ≠ p := by
    intro e
    rcases List.mem_cons.mp hpmem with e2 | e2
    · exact hvs (e.trans e2)
    · exact hvl (e ▸ e2)
  have hvpos : v ≠ pos := by
    intro e
    rcases List.mem_cons.mp hposmem with e2 | e2
    · exact hvs (e.trans e2)
    · exact hvr (e ▸ e2)
  have hch' : List.Chain' (link h) ((s :: l) ++ (r ++ [s])) := by
    have h2 : s :: (l ++ r) ++ [s] = (s :: l) ++ (r ++ [s]) := by simp
    rw [← h2]
    exact hch
  rw [List.chain'_append] at hch'
  obtain ⟨hch1, hch2, hglue⟩ := hch'
  have hlastq : (s :: l).getLast? = some p := by
    rw [hpdef]
    exact List.getLast?_eq_getLast_of_ne_nil _
  have hheadq : (r ++ [s]).head? = some pos := head?_append_singleton r s
  have hlk : link h p pos := hglue p (by simp [hlastq]) pos (by simp [hheadq])
  have hposs : (h pos).list_sentinel_ = some s := by
    rcases List.mem_cons.mp hposmem with e | e
    · rw [e]; exact hss
    · exact hmem pos (List.mem_append.mpr (Or.inr e))
  have hposnext : ∃ nt, (h pos).next_ = some nt := by
    apply chain'_next_total (s :: (l ++ r) ++ [s]) hch pos
    have h2 : (s :: (l ++ r) ++ [s]).dropLast = s :: (l ++ r) := by
      rw [show s :: (l ++ r) ++ [s] = (s :: (l ++ r)) ++ [s] by simp, List.dropLast_concat]
    rw [h2]
    rcases List.mem_cons.mp hposmem with e | e
    · exact e ▸ List.mem_cons_self s _
    · exact List.mem_cons_of_mem s (List.mem_append.mpr (Or.inr e))
  obtain ⟨nt, hnt⟩ := hposnext
  have heq := InsertBefore_eq h v pos p s nt hv hvpos hvp hposs hnt hlk.2
  refine ⟨heq, ?_, ?_, ?_, ?_⟩
  · have h1 : ((s :: l) ++ v :: r).Nodup := by
      rw [List.nodup_middle]
      refine List.nodup_cons.mpr ⟨?_, by simpa using hnd⟩
      intro hx
      rcases List.mem_append.mp hx with hx | hx
      · rcases List.mem_cons.mp hx with e | e
        · exact hvs e
        · exact hvl e
      · exact hvr hx
    simpa using h1
  · rw [insAfterHeap_sentinel_of_ne h v pos p s s (fun e => hvs e.symm)]
    exact hss
  · intro n hn
    rcases List.mem_append.mp hn with hx | hx
    · rw [insAfterHeap_sentinel_of_ne h v pos p s n (fun e => hvl (e ▸ hx))]
      exact hmem n (List.mem_append.mpr (Or.inl hx))
    · rcases List.mem_cons.mp hx with e | e
      · subst e
        rw [insAfterHeap_at_v]
      · rw [insAfterHeap_sentinel_of_ne h v pos p s n (fun e2 => hvr (e2 ▸ e))]
        exact hmem n (List.mem_append.mpr (Or.inr e))
  · have target_eq : s :: (l ++ v :: r) ++ [s] = (s :: l) ++ (v :: (r ++ [s])) := by simp
    rw [target_eq, List.chain'_append]
    refine ⟨?_, ?_, ?_⟩
    · refine chain'_link_mono (s :: l) ?_ ?_ hch1
      · intro a ha
        have hav : a ≠ v := by
          intro e
          have h2 : a ∈ s :: l := List.dropLast_subset _ ha
          rcases List.mem_cons.mp h2 with e2 | e2
          · exact hvs (e ▸ e2 : v = s)
          · exact hvl (e ▸ e2)
        have hap : a ≠ p := by
          intro e
          exact (hpdef ▸ getLast_not_mem_dropLast (s :: l) (List.cons_ne_nil s l) hslnd)
            (e ▸ ha)
        exact insAfterHeap_next_of_ne h v pos p s a hav hap
      · intro b hb
        have hbl : b ∈ l := hb
        have hbv : b ≠ v := fun e => hvl (e ▸ hbl)
        have hbpos : b ≠ pos := by
          intro e
          rcases List.mem_cons.mp hposmem with e2 | e2
          · exact hsl (by rw [← e2, ← e]; exact hbl)
          · exact hdisj hbl (by rw [e]; exact e2)
        exact insAfterHeap_prev_of_ne h v pos p s b hbv hbpos
    · rw [List.chain'_cons']
      refine ⟨?_, ?_⟩
      · intro y hy
        rw [hheadq] at hy
        have hy2 : y = pos := by simpa using hy.symm
        subst hy2
        refine ⟨?_, insAfterHeap_prev_t h v pos p s (fun e => hvpos e.symm)⟩
        rw [insAfterHeap_at_v]
      · refine chain'_link_mono (r ++ [s]) ?_ ?_ hch2
        · intro a ha
          rw [List.dropLast_concat] at ha
          have hav : a ≠ v := fun e => hvr (e ▸ ha)
          have hap : a ≠ p := by
            intro e
            rcases List.mem_cons.mp hpmem with e2 | e2
            · exact hsr (by rw [← e2, ← e]; exact ha)
            · exact hdisj (by rw [e]; exact e2) ha
          exact insAfterHeap_next_of_ne h v pos p s a hav hap
        · intro b hb
          have hkey : b ≠ v ∧ b ≠ pos := by
            cases r with
            | nil => simp at hb
            | cons c r' =>
              have hposc : pos = c := by rw [hposdef]; rfl
              have hb2 : b ∈ r' ++ [s] := hb
              rcases List.mem_append.mp hb2 with hbr | hbs
              · have hbrr : b ∈ c :: r' := List.mem_cons_of_mem c hbr
                refine ⟨fun e => hvr (e ▸ hbrr), fun e => ?_⟩
                rw [hposc] at e
                exact (List.nodup_cons.mp hrnd).1 (e ▸ hbr)
              · have hbs2 : b = s := by simpa using hbs
                subst hbs2
                refine ⟨fun e => hvs e.symm, fun e => ?_⟩
                rw [hposc] at e
                exact hsr (e ▸ List.mem_cons_self c r')
          exact insAfterHeap_prev_of_ne h v pos p s b hkey.1 hkey.2
    · intro x hx y hy
      rw [hlastq] at hx
      have hx2 : x = p := by simpa using hx.symm
      have hy2 : y = v := by simpa using hy.symm
      rw [hx2, hy2]
      refine ⟨insAfterHeap_next_p h v pos p s (fun e => hvp e.symm), ?_⟩
      rw [insAfterHeap_at_v]

end berrydb

namespace berrydb

/-- Detaching the attached node `v` from ring position `ns = l ++ v :: r`
succeeds, produces exactly the `removedHeap` closed form, and re-establishes
the invariant with `v` gone and the relative order of `l ++ r` intact. -/
theorem chainOk_remove (h : Heap) (s v : NodeId) (l r : List NodeId)
    (hc : chainOk h s (l ++ v :: r)) :
    Remove h v =
      some (removedHeap h v (r.headD s) ((s :: l).getLast (List.cons_ne_nil s l))) ∧
    chainOk (removedHeap h v (r.headD s) ((s :: l).getLast (List.cons_ne_nil s l)))
      s (l ++ r) := by
  obtain ⟨hnd, hss, hmem, hch⟩ := hc
  set nx := r.headD s with hnxdef
  set pv := (s :: l).getLast (List.cons_ne_nil s l) with hpdef
  have hvsent : (h v).list_sentinel_ = some s :=
    hmem v (List.mem_append.mpr (Or.inr (List.mem_cons_self v r)))
  have hnds := hnd
  rw [List.nodup_cons] at hnds
  obtain ⟨hsnotin, hmid⟩ := hnds
  have hsv : ¬ s = v :=
    fun e => hsnotin (List.mem_append.mpr (Or.inr (e ▸ List.mem_cons_self v r)))
  have hsl : s ∉ l := fun hx => hsnotin (List.mem_append.mpr (Or.inl hx))
  have hsr : s ∉ r :=
    fun hx => hsnotin (List.mem_append.mpr (Or.inr (List.mem_cons_of_mem v hx)))
  have hmid2 : (v :: (l ++ r)).Nodup := List.nodup_middle.mp hmid
  rw [List.nodup_cons] at hmid2
  obtain ⟨hvnotin, hlr⟩ := hmid2
  have hvl : v ∉ l := fun hx => hvnotin (List.mem_append.mpr (Or.inl hx))
  have hvr : v ∉ r := fun hx => hvnotin (List.mem_append.mpr (Or.inr hx))
  rw [List.nodup_append] at hlr
  obtain ⟨hlnd, hrnd, hdisj⟩ := hlr
  have hslnd : (s :: l).Nodup := by
    refine List.nodup_cons.mpr ⟨hsl, hlnd⟩
  have hpmem : pv ∈ s :: l := hpdef ▸ List.getLast_mem (List.cons_ne_nil s l)
  have hnxmem : nx ∈ s :: r := headD_mem_cons r s
  have hnxv : nx ≠ v := by
    intro e
    rcases List.mem_cons.mp hnxmem with e2 | e2
    · exact hsv (e ▸ e2.symm : s = v)
    · exact hvr (e ▸ e2)
  have hpvv : pv ≠ v := by
    intro e
    rcases List.mem_cons.mp hpmem with e2 | e2
    · exact hsv (e ▸ e2.symm : s = v)
    · exact hvl (e ▸ e2)
  have hch' : List.Chain' (link h) ((s :: l) ++ (v :: (r ++ [s]))) := by
    have h2 : s :: (l ++ v :: r) ++ [s] = (s :: l) ++ (v :: (r ++ [s])) := by simp
    rw [← h2]
    exact hch
  rw [List.chain'_append] at hch'
  obtain ⟨hch1, hchv, hglue⟩ := hch'
  have hlastq : (s :: l).getLast? = some pv := by
    rw [hpdef]
    exact List.getLast?_eq_getLast_of_ne_nil _
  have hheadq : (r ++ [s]).head? = some nx := head?_append_singleton r s
  have hlkpv : link h pv v := hglue pv (by simp [hlastq]) v (by simp)
  rw [List.chain'_cons'] at hchv
  obtain ⟨hvnx, hch2⟩ := hchv
  have hlkv : link h v nx := hvnx nx (by simp [hheadq])
  have heq := Remove_eq h v s nx pv hvsent hsv hlkv.1 hlkpv.2 hnxv hpvv
  refine ⟨heq, ?_, ?_, ?_, ?_⟩
  · refine List.nodup_cons.mpr ⟨?_, ?_⟩
    · intro hx
      rcases List.mem_append.mp hx with hx | hx
      · exact hsl hx
      · exact hsr hx
    · rw [List.nodup_append]
      exact ⟨hlnd, hrnd, hdisj⟩
  · rw [removedHeap_sentinel_of_ne h v nx pv s (fun e => hsv e)]
    exact hss
  · intro n hn
    have hnv : n ≠ v := by
      intro e
      rcases List.mem_append.mp hn with hx | hx
      · exact hvl (e ▸ hx)
      · exact hvr (e ▸ hx)
    rw [removedHeap_sentinel_of_ne h v nx pv n hnv]
    rcases List.mem_append.mp hn with hx | hx
    · exact hmem n (List.mem_append.mpr (Or.inl hx))
    · exact hmem n (List.mem_append.mpr (Or.inr (List.mem_cons_of_mem v hx)))
  · have target_eq : s :: (l ++ r) ++ [s] = (s :: l) ++ (r ++ [s]) := by simp
    rw [target_eq, List.chain'_append]
    refine ⟨?_, ?_, ?_⟩
    · refine chain'_link_mono (s :: l) ?_ ?_ hch1
      · intro a ha
        have hav : a ≠ v := by
          intro e
          have h2 : a ∈ s :: l := List.dropLast_subset _ ha
          rcases List.mem_cons.mp h2 with e2 | e2
          · exact hsv ((e ▸ e2 : v = s).symm)
          · exact hvl (e ▸ e2)
        have hap : a ≠ pv := by
          intro e
          exact (hpdef ▸ getLast_not_mem_dropLast (s :: l) (List.cons_ne_nil s l) hslnd)
            (e ▸ ha)
        exact removedHeap_next_of_ne h v nx pv a hav hap
      · intro b hb
        have hbl : b ∈ l := hb
        have hbv : b ≠ v := fun e => hvl (e ▸ hbl)
        have hbnx : b ≠ nx := by
          intro e
          rcases List.mem_cons.mp hnxmem with e2 | e2
          · exact hsl (by rw [← e2, ← e]; exact hbl)
          · exact hdisj hbl (by rw [e]; exact e2)
        exact removedHeap_prev_of_ne h v nx pv b hbv hbnx
    · refine chain'_link_mono (r ++ [s]) ?_ ?_ hch2
      · intro a ha
        rw [List.dropLast_concat] at ha
        have hav : a ≠ v := fun e => hvr (e ▸ ha)
        have hap : a ≠ pv := by
          intro e
          rcases List.mem_cons.mp hpmem with e2 | e2
          · exact hsr (by rw [← e2, ← e]; exact ha)
          · exact hdisj (by rw [e]; exact e2) ha
        exact removedHeap_next_of_ne h v nx pv a hav hap
      · intro b hb
        have hkey : b ≠ v ∧ b ≠ nx := by
          cases r with
          | nil => simp at hb
          | cons c r' =>
            have hnxc : nx = c := by rw [hnxdef]; rfl
            have hb2 : b ∈ r' ++ [s] := hb
            rcases List.mem_append.mp hb2 with hbr | hbs
            · have hbrr : b ∈ c :: r' := List.mem_cons_of_mem c hbr
              refine ⟨fun e => hvr (e ▸ hbrr), fun e => ?_⟩
              rw [hnxc] at e
              exact (List.nodup_cons.mp hrnd).1 (e ▸ hbr)
            · have hbs2 : b = s := by simpa using hbs
              subst hbs2
              refine ⟨fun e => hsv e, fun e => ?_⟩
              rw [hnxc] at e
              exact hsr (e ▸ List.mem_cons_self c r')
        exact removedHeap_prev_of_ne h v nx pv b hkey.1 hkey.2
    · intro x hx y hy
      rw [hlastq] at hx
      rw [hheadq] at hy
      have hx2 : x = pv := by simpa using hx.symm
      have hy2 : y = nx := by simpa using hy.symm
      rw [hx2, hy2]
      exact ⟨removedHeap_next_pv h v nx pv hpvv, removedHeap_prev_nx h v nx pv hnxv⟩

end berrydb

namespace berrydb

/-! ### List-level operation specifications -/

theorem nodeNext_eval (h : Heap) (i nx : NodeId)
    (hs : ¬ (h i).list_sentinel_ = none)
    (hn : (h i).next_ = some nx) (hpv : (h nx).prev_ = some i) :
    nodeNext h i = some nx := by
  unfold nodeNext
  rw [if_neg hs]
  simp only [hn]
  rw [if_pos hpv]

theorem nodePrev_eval (h : Heap) (i pv : NodeId)
    (hs : ¬ (h i).list_sentinel_ = none)
    (hp : (h i).prev_ = some pv) (hnx : (h pv).next_ = some i) :
    nodePrev h i = some pv := by
  unfold nodePrev
  rw [if_neg hs]
  simp only [hp]
  rw [if_pos hnx]

theorem nodeNext_chainOk (h : Heap) (s : NodeId) (ns : List NodeId)
    (hc : chainOk h s ns) : nodeNext h s = some (ns.headD s) := by
  obtain ⟨hnd, hss, hmem, hch⟩ := hc
  have hch2 : List.Chain' (link h) (s :: (ns ++ [s])) := by simpa using hch
  rw [List.chain'_cons'] at hch2
  have hy : ns.headD s ∈ (ns ++ [s]).head? := by
    rw [head?_append_singleton]
    exact rfl
  have hlk : link h s (ns.headD s) := hch2.1 _ hy
  exact nodeNext_eval h s (ns.headD s) (by rw [hss]; simp) hlk.1 hlk.2

theorem nodePrev_chainOk (h : Heap) (s : NodeId) (ns : List NodeId)
    (hc : chainOk h s ns) :
    nodePrev h s = some ((s :: ns).getLast (List.cons_ne_nil s ns)) := by
  obtain ⟨hnd, hss, hmem, hch⟩ := hc
  have hch' : List.Chain' (link h) ((s :: ns) ++ [s]) := by simpa using hch
  rw [List.chain'_append] at hch'
  have hx : (s :: ns).getLast (List.cons_ne_nil s ns) ∈ (s :: ns).getLast? := by
    rw [List.getLast?_eq_getLast_of_ne_nil (List.cons_ne_nil s ns)]
    exact rfl
  have hlk : link h ((s :: ns).getLast (List.cons_ne_nil s ns)) s :=
    hch'.2.2 _ hx s (by exact rfl)
  exact nodePrev_eval h s _ (by rw [hss]; simp) hlk.2 hlk.1

theorem beginIter_chainOk (h : Heap) (s : NodeId) (k : Nat) (ns : List NodeId)
    (hc : chainOk h s ns) : beginIter h ⟨s, k⟩ = some (ns.headD s) :=
  nodeNext_chainOk h s ns hc

theorem insert_spec (B : Bridge) (h : Heap) (s : NodeId) (k : Nat)
    (l r : List NodeId) (value : Nat)
    (hc : chainOk h s (l ++ r)) (hv : h (B.nodeForHost value) = detachedNode)
    (hB : B.hostForNode (B.nodeForHost value) = value) :
    insert B h ⟨s, k⟩ (r.headD s) value =
      some (insAfterHeap h (B.nodeForHost value) (r.headD s)
              ((s :: l).getLast (List.cons_ne_nil s l)) s, ⟨s, k + 1⟩) ∧
    chainOk (insAfterHeap h (B.nodeForHost value) (r.headD s)
              ((s :: l).getLast (List.cons_ne_nil s l)) s)
      s (l ++ B.nodeForHost value :: r) := by
  obtain ⟨heq, hok⟩ := chainOk_insert h s (B.nodeForHost value) l r hc hv
  refine ⟨?_, hok⟩
  unfold insert
  rw [if_neg (fun hc2 => hc2 hB), heq]
  rfl

theorem InsertBefore_fails_attached (h : Heap) (v t s' : NodeId)
    (hv : (h v).list_sentinel_ = some s') (hne : ¬ s' = v) :
    InsertBefore h v t = none := by
  simp [InsertBefore, hv, hne]

theorem insert_fails_attached (B : Bridge) (h : Heap) (lst : LinkedList)
    (pos : NodeId) (value : Nat) (s' : NodeId)
    (hv : (h (B.nodeForHost value)).list_sentinel_ = some s')
    (hne : ¬ s' = B.nodeForHost value) :
    insert B h lst pos value = none := by
  by_cases hB : B.hostForNode (B.nodeForHost value) = value
  · simp [insert, hB, InsertBefore_fails_attached h _ pos s' hv hne]
  · simp [insert, hB]

theorem eraseIter_spec (h : Heap) (s : NodeId) (k : Nat) (l r : List NodeId)
    (v : NodeId) (hc : chainOk h s (l ++ v :: r)) (hk : ¬ k = 0) :
    eraseIter h ⟨s, k⟩ v =
      some (removedHeap h v (r.headD s) ((s :: l).getLast (List.cons_ne_nil s l)),
            ⟨s, k - 1⟩) ∧
    chainOk (removedHeap h v (r.headD s) ((s :: l).getLast (List.cons_ne_nil s l)))
      s (l ++ r) := by
  obtain ⟨heq, hok⟩ := chainOk_remove h s v l r hc
  have hsent : (h v).list_sentinel_ = some s :=
    hc.2.2.1 v (List.mem_append.mpr (Or.inr (List.mem_cons_self v r)))
  have hsv : ¬ s = v := by
    intro e
    exact (List.nodup_cons.mp hc.1).1
      (List.mem_append.mpr (Or.inr (e ▸ List.mem_cons_self v r)))
  refine ⟨?_, hok⟩
  simp [eraseIter, hsent, hsv, heq, hk]

theorem eraseValue_spec (B : Bridge) (h : Heap) (s : NodeId) (k : Nat)
    (l r : List NodeId) (value : Nat)
    (hc : chainOk h s (l ++ B.nodeForHost value :: r)) (hk : ¬ k = 0) :
    eraseValue B h ⟨s, k⟩ value =
      some (removedHeap h (B.nodeForHost value) (r.headD s)
              ((s :: l).getLast (List.cons_ne_nil s l)), ⟨s, k - 1⟩) ∧
    chainOk (removedHeap h (B.nodeForHost value) (r.headD s)
              ((s :: l).getLast (List.cons_ne_nil s l)))
      s (l ++ r) := by
  obtain ⟨heq, hok⟩ := chainOk_remove h s (B.nodeForHost value) l r hc
  have hsent : (h (B.nodeForHost value)).list_sentinel_ = some s :=
    hc.2.2.1 _ (List.mem_append.mpr (Or.inr (List.mem_cons_self _ r)))
  have hsv : ¬ s = B.nodeForHost value := by
    intro e
    exact (List.nodup_cons.mp hc.1).1
      (List.mem_append.mpr (Or.inr (e ▸ List.mem_cons_self _ r)))
  refine ⟨?_, hok⟩
  simp [eraseValue, hsent, hsv, heq, hk]

theorem eraseValue_fails_detached (B : Bridge) (h : Heap) (lst : LinkedList)
    (value : Nat)
    (hv : (h (B.nodeForHost value)).list_sentinel_ = none) :
    eraseValue B h lst value = none := by
  simp only [eraseValue]
  rw [if_neg (by rw [hv]; simp), if_pos (by rw [hv]; simp)]

theorem push_back_spec (B : Bridge) (h : Heap) (s : NodeId) (k : Nat)
    (ns : List NodeId) (value : Nat)
    (hc : chainOk h s ns) (hv : h (B.nodeForHost value) = detachedNode)
    (hB : B.hostForNode (B.nodeForHost value) = value) :
    push_back B h ⟨s, k⟩ value =
      some (insAfterHeap h (B.nodeForHost value) s
              ((s :: ns).getLast (List.cons_ne_nil s ns)) s, ⟨s, k + 1⟩) ∧
    chainOk (insAfterHeap h (B.nodeForHost value) s
              ((s :: ns).getLast (List.cons_ne_nil s ns)) s)
      s (ns ++ [B.nodeForHost value]) := by
  have hspec := insert_spec B h s k ns [] value (by simpa using hc) hv hB
  simpa [push_back, endIter] using hspec

theorem push_front_spec (B : Bridge) (h : Heap) (s : NodeId) (k : Nat)
    (ns : List NodeId) (value : Nat)
    (hc : chainOk h s ns) (hv : h (B.nodeForHost value) = detachedNode)
    (hB : B.hostForNode (B.nodeForHost value) = value) :
    push_front B h ⟨s, k⟩ value =
      some (insAfterHeap h (B.nodeForHost value) (ns.headD s) s s, ⟨s, k + 1⟩) ∧
    chainOk (insAfterHeap h (B.nodeForHost value) (ns.headD s) s s)
      s (B.nodeForHost value :: ns) := by
  have hspec := insert_spec B h s k [] ns value (by simpa using hc) hv hB
  have hb := beginIter_chainOk h s k ns hc
  constructor
  · rw [push_front, hb]
    have h2 := hspec.1
    simpa using h2
  · have h2 := hspec.2
    simpa using h2

end berrydb

namespace berrydb

/-! ### Iterator and traversal lemmas -/

/-- Backward adjacency: the relation the backward traversal follows. -/
def rlink (h : Heap) (a b : NodeId) : Prop :=
  (h a).prev_ = some b ∧ (h b).next_ = some a

theorem iterDeref_eval (B : Bridge) (h : Heap) (i s : NodeId)
    (hsent : (h i).list_sentinel_ = some s) (hne : ¬ s = i) :
    iterDeref B h i = some (B.hostForNode i) := by
  unfold iterDeref
  rw [if_neg (by rw [hsent]; intro e; exact hne (by injection e))]

theorem incIter_eval (h : Heap) (i nx s : NodeId)
    (hsent : (h i).list_sentinel_ = some s) (hne : ¬ s = i)
    (hnn : nodeNext h i = some nx) : incIter h i = some nx := by
  unfold incIter
  rw [if_neg (by rw [hsent]; intro e; exact hne (by injection e)), hnn]

theorem decIter_eval (h : Heap) (i pv : NodeId)
    (hnp : nodePrev h i = some pv)
    (hnsent : ¬ (h pv).list_sentinel_ = some pv) :
    decIter h i = some pv := by
  unfold decIter
  simp only [hnp]
  rw [if_neg hnsent]

theorem traverseFwd_succ (B : Bridge) (h : Heap) (fuel : Nat) (cur stop : NodeId) :
    traverseFwd B h (fuel + 1) cur stop =
      if cur = stop then some []
      else match iterDeref B h cur, incIter h cur with
        | some v, some nx => (traverseFwd B h fuel nx stop).map (fun rest => v :: rest)
        | _, _ => none := rfl

theorem traverseBwd_succ (B : Bridge) (h : Heap) (fuel : Nat) (cur first : NodeId) :
    traverseBwd B h (fuel + 1) cur first =
      match iterDeref B h cur with
      | none => none
      | some v =>
        if cur = first then some [v]
        else match decIter h cur with
          | none => none
          | some p => (traverseBwd B h fuel p first).map (fun rest => v :: rest) := rfl

/-- Forward traversal along a chain segment `seg` that ends at the sentinel
collects exactly the segment's host values. -/
theorem traverseFwd_go (B : Bridge) (h : Heap) (s : NodeId) :
    ∀ (seg : List NodeId),
      List.Chain' (link h) (seg ++ [s]) →
      (∀ n ∈ seg, (h n).list_sentinel_ = some s ∧ n ≠ s) →
      traverseFwd B h (seg.length + 1) (seg.headD s) s = some (seg.map B.hostForNode)
  | [], _, _ => by
    show traverseFwd B h 1 s s = some []
    rw [traverseFwd_succ, if_pos rfl]
  | c :: seg', hch, hfacts => by
    obtain ⟨hcs, hcns⟩ := hfacts c (List.mem_cons_self c seg')
    have hch' := List.chain'_cons'.mp hch
    have hnxmem : seg'.headD s ∈ (seg' ++ [s]).head? := by
      rw [head?_append_singleton]
      exact rfl
    have hlk : link h c (seg'.headD s) := hch'.1 _ hnxmem
    have hIH := traverseFwd_go B h s seg' hch'.2
      (fun n hn => hfacts n (List.mem_cons_of_mem c hn))
    have hfuel : (c :: seg').length + 1 = seg'.length + 1 + 1 := by simp
    show traverseFwd B h ((c :: seg').length + 1) c s = _
    rw [hfuel, traverseFwd_succ, if_neg hcns]
    rw [iterDeref_eval B h c s hcs (fun e => hcns e.symm)]
    rw [incIter_eval h c (seg'.headD s) s hcs (fun e => hcns e.symm)
      (nodeNext_eval h c _ (by rw [hcs]; simp) hlk.1 hlk.2)]
    simp only [hIH]
    rfl

/-- Backward traversal along the visit-order list `vs` (last element first)
collects exactly `vs`'s host values. -/
theorem traverseBwd_go (B : Bridge) (h : Heap) (s : NodeId) :
    ∀ (vs : List NodeId) (hne : vs ≠ []),
      List.Chain' (rlink h) vs →
      (∀ n ∈ vs, (h n).list_sentinel_ = some s ∧ n ≠ s) →
      vs.Nodup →
      traverseBwd B h vs.length (vs.head hne) (vs.getLast hne) =
        some (vs.map B.hostForNode)
  | [], hne, _, _, _ => absurd rfl hne
  | [c], _, _, hfacts, _ => by
    obtain ⟨hcs, hcns⟩ := hfacts c (List.mem_cons_self c [])
    show traverseBwd B h 1 c c = some [B.hostForNode c]
    rw [traverseBwd_succ]
    rw [iterDeref_eval B h c s hcs (fun e => hcns e.symm)]
    simp
  | c :: d :: vs', _, hch, hfacts, hnd => by
    obtain ⟨hcs, hcns⟩ := hfacts c (List.mem_cons_self c (d :: vs'))
    obtain ⟨hds, hdns⟩ := hfacts d (List.mem_cons_of_mem c (List.mem_cons_self d vs'))
    rw [List.chain'_cons] at hch
    have hIH := traverseBwd_go B h s (d :: vs') (List.cons_ne_nil d vs') hch.2
      (fun n hn => hfacts n (List.mem_cons_of_mem c hn))
      (List.nodup_cons.mp hnd).2
    have hcfirst : ¬ c = (c :: d :: vs').getLast (List.cons_ne_nil c (d :: vs')) := by
      intro e
      have hmem : (c :: d :: vs').getLast (List.cons_ne_nil c (d :: vs')) ∈ d :: vs' := by
        rw [List.getLast_cons (List.cons_ne_nil d vs')]
        exact List.getLast_mem (List.cons_ne_nil d vs')
      rw [← e] at hmem
      exact (List.nodup_cons.mp hnd).1 hmem
    have hfuel : (c :: d :: vs').length = (d :: vs').length + 1 := by simp
    show traverseBwd B h ((c :: d :: vs').length) c
      ((c :: d :: vs').getLast (List.cons_ne_nil c (d :: vs'))) = _
    rw [hfuel, traverseBwd_succ]
    rw [iterDeref_eval B h c s hcs (fun e => hcns e.symm)]
    simp only []
    rw [if_neg hcfirst]
    have hlast : (c :: d :: vs').getLast (List.cons_ne_nil c (d :: vs')) =
        (d :: vs').getLast (List.cons_ne_nil d vs') :=
      List.getLast_cons (List.cons_ne_nil d vs')
    rw [hlast]
    have hIH2 : traverseBwd B h (d :: vs').length d
        ((d :: vs').getLast (List.cons_ne_nil d vs')) =
        some (List.map B.hostForNode (d :: vs')) := hIH
    simp only [decIter_eval h c d
      (nodePrev_eval h c d (by rw [hcs]; simp) hch.1.1 hch.1.2)
      (by rw [hds]; intro e; exact hdns (by injection e with e2; exact e2.symm)),
      hIH2]
    rfl

theorem chain'_link_of_rlink_reverse {h : Heap} (l : List NodeId)
    (hc : List.Chain' (link h) l) : List.Chain' (rlink h) l.reverse := by
  rw [List.chain'_reverse]
  exact List.Chain'.imp (fun a b hab => ⟨hab.2, hab.1⟩) hc

end berrydb

namespace berrydb

/-! ### Operation sequences over a single list (default bridge) -/

/-- A client-visible mutation on one list. -/
inductive Op where
  | pushB : Nat → Op
  | pushF : Nat → Op
  | eraseV : Nat → Op
deriving Repr, DecidableEq

/-- The host value an operation works on. -/
def Op.value : Op → Nat
  | .pushB v => v
  | .pushF v => v
  | .eraseV v => v

/-- Run one operation on a heap-and-list state. -/
def execOp (B : Bridge) (st : Heap × LinkedList) : Op → Option (Heap × LinkedList)
  | .pushB v => push_back B st.1 st.2 v
  | .pushF v => push_front B st.1 st.2 v
  | .eraseV v => eraseValue B st.1 st.2 v

/-- Run a sequence of operations, stopping fatally at the first failed check. -/
def runOps (B : Bridge) : Heap × LinkedList → List Op → Option (Heap × LinkedList)
  | st, [] => some st
  | st, op :: ops =>
    match execOp B st op with
    | none => none
    | some st2 => runOps B st2 ops

/-- Memory right after constructing the list (sentinel self-linked at `s`)
and default-constructing every host node (validated build nulls them). -/
def freshHeap (s : NodeId) : Heap :=
  fun n => if n = s then sentinelNode s else detachedNode

/-- Whole-state invariant for a single list over the host-node universe
`univ`: the chain invariant holds, `size_` matches, members come from the
universe, and every non-member universe node is fully detached. -/
def WInv (st : Heap × LinkedList) (univ ns : List NodeId) : Prop :=
  chainOk st.1 st.2.sentinel_ ns ∧ st.2.size_ = ns.length ∧
  (∀ n ∈ ns, n ∈ univ) ∧ st.2.sentinel_ ∉ univ ∧
  (∀ n ∈ univ, n ∉ ns → st.1 n = detachedNode)

theorem WInv_fresh (s : NodeId) (univ : List NodeId) (hs : s ∉ univ) :
    WInv (freshHeap s, ⟨s, 0⟩) univ [] := by
  refine ⟨⟨by simp, by simp [freshHeap, sentinelNode], by simp, ?_⟩, rfl, by simp, hs, ?_⟩
  · refine List.chain'_cons.mpr ⟨⟨?_, ?_⟩, List.chain'_singleton s⟩ <;>
      simp [freshHeap, sentinelNode]
  · intro n hn hn2
    have : n ≠ s := fun e => hs (e ▸ hn)
    simp [freshHeap, this]

theorem execOp_preserves (univ : List NodeId) (st : Heap × LinkedList)
    (ns : List NodeId) (hw : WInv st univ ns) (op : Op) (hval : op.value ∈ univ)
    (st' : Heap × LinkedList) (hex : execOp defaultBridge st op = some st') :
    ∃ ns', WInv st' univ ns' := by
  obtain ⟨h, lst⟩ := st
  obtain ⟨hc, hsz, hsub, hsnot, hdet⟩ := hw
  dsimp only at hc hsz hsub hsnot hdet
  have hsne : ∀ x ∈ univ, lst.sentinel_ ≠ x := fun x hx e => hsnot (e ▸ hx)
  cases op with
  | pushB v =>
    simp only [execOp] at hex
    by_cases hvin : v ∈ ns
    · exfalso
      have hsent : (h v).list_sentinel_ = some lst.sentinel_ := hc.2.2.1 v hvin
      have hfail : push_back defaultBridge h lst v = none := by
        unfold push_back
        exact insert_fails_attached defaultBridge h lst _ v lst.sentinel_ hsent
          (hsne v (hsub v hvin))
      rw [hfail] at hex
      cases hex
    · have hv : h v = detachedNode := hdet v (by exact hval) hvin
      have hspec := push_back_spec defaultBridge h lst.sentinel_ lst.size_ ns v hc hv rfl
      rw [show (⟨lst.sentinel_, lst.size_⟩ : LinkedList) = lst from rfl,
        show defaultBridge.nodeForHost v = v from rfl] at hspec
      rw [hspec.1] at hex
      cases hex
      refine ⟨ns ++ [v], hspec.2, by dsimp only; simp [hsz], ?_, hsnot, ?_⟩
      · intro n hn
        rcases List.mem_append.mp hn with hx | hx
        · exact hsub n hx
        · have : n = v := by simpa using hx
          exact this ▸ hval
      · intro n hn hn2
        dsimp only
        have hnv : n ≠ v := fun e => hn2 (by rw [e]; simp)
        have hns : n ≠ lst.sentinel_ := fun e => hsnot (e ▸ hn)
        have hnp : n ≠ (lst.sentinel_ :: ns).getLast (List.cons_ne_nil _ _) := by
          intro e
          have hm := List.getLast_mem (List.cons_ne_nil lst.sentinel_ ns)
          rw [← e] at hm
          rcases List.mem_cons.mp hm with e2 | e2
          · exact hns e2
          · exact hn2 (List.mem_append.mpr (Or.inl e2))
        rw [insAfterHeap_frame h v lst.sentinel_ _ lst.sentinel_ n hnv hns hnp]
        exact hdet n hn (fun e => hn2 (List.mem_append.mpr (Or.inl e)))
  | pushF v =>
    simp only [execOp] at hex
    by_cases hvin : v ∈ ns
    · exfalso
      have hsent : (h v).list_sentinel_ = some lst.sentinel_ := hc.2.2.1 v hvin
      have hb := beginIter_chainOk h lst.sentinel_ lst.size_ ns hc
      rw [show (⟨lst.sentinel_, lst.size_⟩ : LinkedList) = lst from rfl] at hb
      have hfail : push_front defaultBridge h lst v = none := by
        unfold push_front
        rw [show beginIter h lst = some (ns.headD lst.sentinel_) from hb]
        exact insert_fails_attached defaultBridge h lst _ v lst.sentinel_ hsent
          (hsne v (hsub v hvin))
      rw [hfail] at hex
      cases hex
    · have hv : h v = detachedNode := hdet v (by exact hval) hvin
      have hspec := push_front_spec defaultBridge h lst.sentinel_ lst.size_ ns v hc hv rfl
      rw [show (⟨lst.sentinel_, lst.size_⟩ : LinkedList) = lst from rfl,
        show defaultBridge.nodeForHost v = v from rfl] at hspec
      rw [hspec.1] at hex
      cases hex
      refine ⟨v :: ns, hspec.2, by dsimp only; simp [hsz], ?_, hsnot, ?_⟩
      · intro n hn
        rcases List.mem_cons.mp hn with e | e
        · exact e ▸ hval
        · exact hsub n e
      · intro n hn hn2
        dsimp only
        have hnv : n ≠ v := fun e => hn2 (by rw [e]; exact List.mem_cons_self v ns)
        have hns : n ≠ lst.sentinel_ := fun e => hsnot (e ▸ hn)
        have hnh : n ≠ ns.headD lst.sentinel_ := by
          intro e
          have hm := headD_mem_cons ns lst.sentinel_
          rw [← e] at hm
          rcases List.mem_cons.mp hm with e2 | e2
          · exact hns e2
          · exact hn2 (List.mem_cons_of_mem v e2)
        rw [insAfterHeap_frame h v _ lst.sentinel_ lst.sentinel_ n hnv hnh hns]
        exact hdet n hn (fun e => hn2 (List.mem_cons_of_mem v e))
  | eraseV v =>
    simp only [execOp] at hex
    by_cases hvin : v ∈ ns
    · obtain ⟨l, r, hns⟩ := List.append_of_mem hvin
      subst hns
      have hk : ¬ lst.size_ = 0 := by
        rw [hsz]
        simp
      have hspec := eraseValue_spec defaultBridge h lst.sentinel_ lst.size_ l r v
        (by exact hc) hk
      rw [show (⟨lst.sentinel_, lst.size_⟩ : LinkedList) = lst from rfl,
        show defaultBridge.nodeForHost v = v from rfl] at hspec
      rw [hspec.1] at hex
      cases hex
      refine ⟨l ++ r, hspec.2, ?_, ?_, hsnot, ?_⟩
      · dsimp only
        rw [hsz]
        simp
      · intro n hn
        rcases List.mem_append.mp hn with hx | hx
        · exact hsub n (List.mem_append.mpr (Or.inl hx))
        · exact hsub n (List.mem_append.mpr (Or.inr (List.mem_cons_of_mem v hx)))
      · intro n hn hn2
        dsimp only
        by_cases hnv : n = v
        · subst hnv
          rw [removedHeap_at_v]
        · have hns : n ≠ lst.sentinel_ := fun e => hsnot (e ▸ hn)
          have hnnx : n ≠ r.headD lst.sentinel_ := by
            intro e
            have hm := headD_mem_cons r lst.sentinel_
            rw [← e] at hm
            rcases List.mem_cons.mp hm with e2 | e2
            · exact hns e2
            · exact hn2 (List.mem_append.mpr (Or.inr e2))
          have hnpv : n ≠ (lst.sentinel_ :: l).getLast (List.cons_ne_nil _ _) := by
            intro e
            have hm := List.getLast_mem (List.cons_ne_nil lst.sentinel_ l)
            rw [← e] at hm
            rcases List.mem_cons.mp hm with e2 | e2
            · exact hns e2
            · exact hn2 (List.mem_append.mpr (Or.inl e2))
          rw [removedHeap_frame h v _ _ n hnv hnnx hnpv]
          refine hdet n hn (fun e => hn2 ?_)
          rcases List.mem_append.mp e with hx | hx
          · exact List.mem_append.mpr (Or.inl hx)
          · rcases List.mem_cons.mp hx with e2 | e2
            · exact absurd e2 hnv
            · exact List.mem_append.mpr (Or.inr e2)
    · exfalso
      have hv : h v = detachedNode := hdet v (by exact hval) hvin
      have hfail : eraseValue defaultBridge h lst v = none :=
        eraseValue_fails_detached defaultBridge h lst v (by rw [show defaultBridge.nodeForHost v = v from rfl, hv]; rfl)
      rw [hfail] at hex
      cases hex

theorem runOps_preserves (univ : List NodeId) :
    ∀ (ops : List Op) (st : Heap × LinkedList) (ns : List NodeId),
      WInv st univ ns → (∀ op ∈ ops, op.value ∈ univ) →
      ∀ st', runOps defaultBridge st ops = some st' → ∃ ns', WInv st' univ ns'
  | [], st, ns, hw, _, st', hrun => by
    rw [runOps] at hrun
    cases hrun
    exact ⟨ns, hw⟩
  | op :: ops, st, ns, hw, hvals, st', hrun => by
    rw [runOps] at hrun
    cases hex : execOp defaultBridge st op with
    | none =>
      rw [hex] at hrun
      cases hrun
    | some st1 =>
      rw [hex] at hrun
      obtain ⟨ns1, hw1⟩ := execOp_preserves univ st ns hw op
        (hvals op (List.mem_cons_self op ops)) st1 hex
      exact runOps_preserves univ ops st1 ns1 hw1
        (fun o ho => hvals o (List.mem_cons_of_mem op ho)) st' hrun

end berrydb

namespace berrydb

theorem attachedCount_eq (h : Heap) (s : NodeId) (univ ns : List NodeId)
    (hc : chainOk h s ns) (hu : univ.Nodup)
    (hsub : ∀ n ∈ ns, n ∈ univ)
    (hdet : ∀ n ∈ univ, n ∉ ns → h n = detachedNode) :
    attachedCount h univ = ns.length := by
  have hnsnd : ns.Nodup := (List.nodup_cons.mp hc.1).2
  have hfe : univ.filter (fun n => !((h n).list_sentinel_ = none : Bool)) =
      univ.filter (fun n => decide (n ∈ ns)) := by
    apply List.filter_congr
    intro x hx
    by_cases hmem : x ∈ ns
    · have h2 := hc.2.2.1 x hmem
      simp [h2, hmem]
    · have h2 := hdet x hx hmem
      simp [h2, detachedNode, hmem]
  rw [attachedCount, hfe]
  have h1 : (univ.filter (fun n => decide (n ∈ ns))).Nodup := hu.filter _
  have h2 : (univ.filter (fun n => decide (n ∈ ns))) ⊆ ns := by
    intro x hx
    have h3 := (List.mem_filter.mp hx).2
    simpa using h3
  have h3 : ns ⊆ univ.filter (fun n => decide (n ∈ ns)) := by
    intro x hx
    exact List.mem_filter.mpr ⟨hsub x hx, by simpa using hx⟩
  exact (List.Subperm.antisymm (List.subperm_of_subset h1 h2)
    (List.subperm_of_subset hnsnd h3)).length_eq

theorem emptyB_chainOk (h : Heap) (s : NodeId) (k : Nat) (ns : List NodeId)
    (hc : chainOk h s ns) :
    emptyB h ⟨s, k⟩ = some (decide (ns = [])) := by
  have hb := nodeNext_chainOk h s ns hc
  unfold emptyB
  rw [show (⟨s, k⟩ : LinkedList).sentinel_ = s from rfl, hb]
  simp only [Option.map_some']
  congr 1
  cases ns with
  | nil => simp
  | cons c t =>
    have hcs : c ≠ s := fun e => (List.nodup_cons.mp hc.1).1 (e ▸ List.mem_cons_self c t)
    simp [hcs]

/-- C1: for every sequence of `push_back`, `push_front` and `erase`
operations run from a freshly constructed `LinkedList` (over an arbitrary
universe of distinct host nodes, with the sentinel outside the universe),
whenever the run completes without tripping a validated check, `size()`
equals the number of currently attached (non-sentinel) host nodes, and
`empty()` returns true exactly when `size() == 0`. -/
theorem C1_spec (s : NodeId) (univ : List NodeId) (hu : univ.Nodup)
    (hs : s ∉ univ) (ops : List Op) (hvals : ∀ op ∈ ops, op.value ∈ univ)
    (st' : Heap × LinkedList)
    (hrun : runOps defaultBridge (freshHeap s, ⟨s, 0⟩) ops = some st') :
    st'.2.size_ = attachedCount st'.1 univ ∧
    emptyB st'.1 st'.2 = some (decide (st'.2.size_ = 0)) := by
  obtain ⟨ns', hw⟩ := runOps_preserves univ ops _ [] (WInv_fresh s univ hs) hvals st' hrun
  obtain ⟨h', lst'⟩ := st'
  obtain ⟨hc, hsz, hsub, hsnot, hdet⟩ := hw
  dsimp only at hc hsz hsub hsnot hdet ⊢
  constructor
  · rw [hsz, attachedCount_eq h' lst'.sentinel_ univ ns' hc hu hsub hdet]
  · have he := emptyB_chainOk h' lst'.sentinel_ lst'.size_ ns' hc
    rw [show (⟨lst'.sentinel_, lst'.size_⟩ : LinkedList) = lst' from rfl] at he
    rw [he]
    congr 1
    rw [hsz]
    cases ns' <;> simp

/-- Witness for C1: a concrete three-operation run on hosts 1, 2, 3. -/
theorem C1_spec_witness :
    ((runOps defaultBridge (freshHeap 0, ⟨0, 0⟩)
        [Op.pushB 1, Op.pushF 2, Op.eraseV 1]).map
      (fun st' => decide (st'.2.size_ = attachedCount st'.1 [1, 2, 3]) &&
        decide (emptyB st'.1 st'.2 = some (decide (st'.2.size_ = 0))))) = some true := by
  have hIs : (runOps defaultBridge (freshHeap 0, ⟨0, 0⟩)
      [Op.pushB 1, Op.pushF 2, Op.eraseV 1]).isSome = true := by decide
  obtain ⟨st', hst'⟩ := Option.isSome_iff_exists.mp hIs
  have hmain := C1_spec 0 [1, 2, 3] (by decide) (by decide)
    [Op.pushB 1, Op.pushF 2, Op.eraseV 1] (by decide) st' hst'
  rw [hst']
  simp [hmain.1, hmain.2]

end berrydb

namespace berrydb

/-! ### Shared concrete example states for witnesses -/

/-- A heap holding one list with sentinel 0 and the single member node 1;
all other nodes detached. -/
def exHeap1 : Heap := fun n =>
  if n = 0 then ⟨some 1, some 1, some 0⟩
  else if n = 1 then ⟨some 0, some 0, some 0⟩
  else detachedNode

theorem node_eq_of_fields (a b : LinkedListNode)
    (h1 : a.next_ = b.next_) (h2 : a.prev_ = b.prev_)
    (h3 : a.list_sentinel_ = b.list_sentinel_) : a = b := by
  cases a
  cases b
  simp_all

/-- Undoing an insertion: removing the freshly inserted `v` from the spliced
heap restores the original heap pointwise. -/
theorem insert_erase_roundtrip_heap (h : Heap) (v pos p s : NodeId)
    (hv : h v = detachedNode) (hvp : v ≠ p) (hvpos : v ≠ pos)
    (hlk : link h p pos) :
    removedHeap (insAfterHeap h v pos p s) v pos p = h := by
  funext n
  by_cases hnv : n = v
  · subst hnv
    rw [removedHeap_at_v, hv]
  · apply node_eq_of_fields
    · by_cases hnp : n = p
      · subst hnp
        rw [removedHeap_next_pv _ _ _ _ (fun e => hvp e.symm)]
        exact hlk.1.symm
      · rw [removedHeap_next_of_ne _ _ _ _ _ hnv hnp,
          insAfterHeap_next_of_ne _ _ _ _ _ _ hnv hnp]
    · by_cases hnpos : n = pos
      · subst hnpos
        rw [removedHeap_prev_nx _ _ _ _ (fun e => hvpos e.symm)]
        exact hlk.2.symm
      · rw [removedHeap_prev_of_ne _ _ _ _ _ hnv hnpos,
          insAfterHeap_prev_of_ne _ _ _ _ _ _ hnv hnpos]
    · rw [removedHeap_sentinel_of_ne _ _ _ _ _ hnv,
        insAfterHeap_sentinel_of_ne _ _ _ _ _ _ hnv]

/-- The glue link of a ring split `ns = l ++ r`: the last node of `s :: l`
and the head of `r ++ [s]` are adjacent. -/
theorem chainOk_split_link (h : Heap) (s : NodeId) (l r : List NodeId)
    (hc : chainOk h s (l ++ r)) :
    link h ((s :: l).getLast (List.cons_ne_nil s l)) (r.headD s) := by
  obtain ⟨hnd, hss, hmem, hch⟩ := hc
  have hch' : List.Chain' (link h) ((s :: l) ++ (r ++ [s])) := by
    rw [show (s :: l) ++ (r ++ [s]) = s :: (l ++ r) ++ [s] by simp]
    exact hch
  rw [List.chain'_append] at hch'
  exact hch'.2.2 _ (by rw [List.getLast?_eq_getLast_of_ne_nil]; exact rfl) _
    (by rw [head?_append_singleton]; exact rfl)

/-- A node whose record is fully nulled belongs to no ring. -/
theorem detached_fresh (h : Heap) (s v : NodeId) (ns : List NodeId)
    (hc : chainOk h s ns) (hv : h v = detachedNode) : v ≠ s ∧ v ∉ ns := by
  constructor
  · intro e
    have h2 := hc.2.1
    rw [← e, hv] at h2
    simp [detachedNode] at h2
  · intro hmem
    have h2 := hc.2.2.1 v hmem
    rw [hv] at h2
    simp [detachedNode] at h2

/-- C6: the four convenience operations are exactly the documented
compositions of `insert` and `erase` at the boundary positions: `push_front`
is `insert(begin(), value)`, `push_back` is `insert(end(), value)`,
`pop_front` is `erase(begin())`, and `pop_back` is `erase(--end())`. -/
theorem C6_spec (B : Bridge) (h : Heap) (lst : LinkedList) (value : Nat) :
    push_front B h lst value =
      (match beginIter h lst with
       | none => none
       | some b => insert B h lst b value) ∧
    push_back B h lst value = insert B h lst (endIter lst) value ∧
    pop_front h lst =
      (match beginIter h lst with
       | none => none
       | some b => eraseIter h lst b) ∧
    pop_back h lst =
      (match decIter h (endIter lst) with
       | none => none
       | some p => eraseIter h lst p) :=
  ⟨rfl, rfl, rfl, rfl⟩

/-- C9: `erase(value)` computes exactly the same result — same heap, same
links, same validated back-references, same size decrement and the same
fatal cases — as `erase(pos)` with the iterator positioned at that value's
node. -/
theorem C9_spec (B : Bridge) (h : Heap) (lst : LinkedList) (value : Nat) :
    eraseValue B h lst value = eraseIter h lst (B.nodeForHost value) := rfl

/-- C3: for a detached node `v` and a target node `t` attached to a list
with sentinel `s` (with predecessor `p`), `InsertBefore` splices `v` in by
exactly the documented pointer rewiring — `v.prev_ = t.prev_;
v.prev_.next_ = v; v.next_ = t; t.prev_ = v` (plus the validated
back-reference on `v`) — and touches no other node's links. -/
theorem C3_spec (h : Heap) (v t s p nt : NodeId)
    (hv : h v = detachedNode) (hvt : v ≠ t) (hvp : v ≠ p)
    (hts : (h t).list_sentinel_ = some s)
    (htn : (h t).next_ = some nt) (htp : (h t).prev_ = some p) :
    ∃ h', InsertBefore h v t = some h' ∧
      h' v = ⟨some t, some p, some s⟩ ∧
      (h' p).next_ = some v ∧
      (h' t).prev_ = some v ∧
      (h' p).list_sentinel_ = (h p).list_sentinel_ ∧
      (h' t).list_sentinel_ = (h t).list_sentinel_ ∧
      (t ≠ p → (h' t).next_ = (h t).next_ ∧ (h' p).prev_ = (h p).prev_) ∧
      (∀ n, n ≠ v → n ≠ p → n ≠ t → h' n = h n) := by
  refine ⟨insAfterHeap h v t p s,
    InsertBefore_eq h v t p s nt hv hvt hvp hts htn htp,
    insAfterHeap_at_v h v t p s,
    insAfterHeap_next_p h v t p s (fun e => hvp e.symm),
    insAfterHeap_prev_t h v t p s (fun e => hvt e.symm),
    insAfterHeap_sentinel_of_ne h v t p s p (fun e => hvp e.symm),
    insAfterHeap_sentinel_of_ne h v t p s t (fun e => hvt e.symm),
    ?_,
    fun n h1 h3 h2 => insAfterHeap_frame h v t p s n h1 h2 h3⟩
  intro htp2
  constructor
  · exact insAfterHeap_next_of_ne h v t p s t (fun e => hvt e.symm) htp2
  · exact insAfterHeap_prev_of_ne h v t p s p (fun e => hvp e.symm)
      (fun e => htp2 e.symm)

/-- Witness for C3: inserting detached node 2 before attached node 1 in the
one-element ring of `exHeap1`. -/
theorem C3_spec_witness :
    ∃ h', InsertBefore exHeap1 2 1 = some h' ∧
      h' 2 = ⟨some 1, some 0, some 0⟩ ∧
      (h' 0).next_ = some 2 ∧
      (h' 1).prev_ = some 2 ∧
      (h' 0).list_sentinel_ = (exHeap1 0).list_sentinel_ ∧
      (h' 1).list_sentinel_ = (exHeap1 1).list_sentinel_ ∧
      ((1 : NodeId) ≠ 0 → (h' 1).next_ = (exHeap1 1).next_ ∧
        (h' 0).prev_ = (exHeap1 0).prev_) ∧
      (∀ n, n ≠ 2 → n ≠ 0 → n ≠ 1 → h' n = exHeap1 n) :=
  C3_spec exHeap1 2 1 0 0 0 (by decide) (by decide) (by decide)
    (by decide) (by decide) (by decide)

end berrydb

namespace berrydb

/-- C5: inserting a detached value at any valid position and immediately
erasing that same value restores the prior state exactly: the heap is
pointwise unchanged (hence the prior iteration order is restored exactly)
and `size_` returns to its prior value. -/
theorem C5_spec (B : Bridge) (h : Heap) (s : NodeId) (k : Nat)
    (l r : List NodeId) (value : Nat)
    (hc : chainOk h s (l ++ r)) (hv : h (B.nodeForHost value) = detachedNode)
    (hB : B.hostForNode (B.nodeForHost value) = value) :
    (match insert B h ⟨s, k⟩ (r.headD s) value with
     | none => none
     | some st1 => eraseValue B st1.1 st1.2 value) = some (h, ⟨s, k⟩) := by
  obtain ⟨hins, hok⟩ := insert_spec B h s k l r value hc hv hB
  rw [hins]
  have hspec := eraseValue_spec B _ s (k + 1) l r value hok (Nat.succ_ne_zero k)
  dsimp only
  rw [hspec.1]
  have hlk := chainOk_split_link h s l r hc
  have hfr := detached_fresh h s (B.nodeForHost value) (l ++ r) hc hv
  have hvp : B.nodeForHost value ≠ (s :: l).getLast (List.cons_ne_nil s l) := by
    intro e
    have hm := List.getLast_mem (List.cons_ne_nil s l)
    rw [← e] at hm
    rcases List.mem_cons.mp hm with e2 | e2
    · exact hfr.1 e2
    · exact hfr.2 (List.mem_append.mpr (Or.inl e2))
  have hvpos : B.nodeForHost value ≠ r.headD s := by
    intro e
    have hm := headD_mem_cons r s
    rw [← e] at hm
    rcases List.mem_cons.mp hm with e2 | e2
    · exact hfr.1 e2
    · exact hfr.2 (List.mem_append.mpr (Or.inr e2))
  rw [insert_erase_roundtrip_heap h (B.nodeForHost value) (r.headD s)
    ((s :: l).getLast (List.cons_ne_nil s l)) s hv hvp hvpos hlk]
  simp

/-- Witness for C5: insert host 2 before node 1 in the one-element ring of
`exHeap1`, then erase it again; the state is exactly restored. -/
theorem C5_spec_witness :
    (match insert defaultBridge exHeap1 ⟨0, 1⟩ (([1] : List NodeId).headD 0) 2 with
     | none => none
     | some st1 => eraseValue defaultBridge st1.1 st1.2 2) =
      some (exHeap1, ⟨0, 1⟩) :=
  C5_spec defaultBridge exHeap1 0 1 [] [1] 2 (by decide) (by decide) rfl

/-- C7: in the validated build, `erase(pos)` and `erase(value)` are fatal
when the designated node is a sentinel or its back-reference is not this
list's sentinel; when the node is attached to this list, both succeed,
decrement `size_` by one, and keep the remaining elements in their prior
relative order. -/
theorem C7_spec (B : Bridge) (h : Heap) (lst : LinkedList) (pos s : NodeId)
    (k : Nat) (l r : List NodeId) (v : NodeId) (value : Nat) :
    ((h pos).list_sentinel_ = some pos → eraseIter h lst pos = none) ∧
    (¬ (h pos).list_sentinel_ = some pos →
      ¬ (h pos).list_sentinel_ = some lst.sentinel_ → eraseIter h lst pos = none) ∧
    (chainOk h s (l ++ v :: r) → ¬ k = 0 →
      eraseIter h ⟨s, k⟩ v =
        some (removedHeap h v (r.headD s) ((s :: l).getLast (List.cons_ne_nil s l)),
              ⟨s, k - 1⟩) ∧
      chainOk (removedHeap h v (r.headD s) ((s :: l).getLast (List.cons_ne_nil s l)))
        s (l ++ r)) ∧
    ((h (B.nodeForHost value)).list_sentinel_ = some (B.nodeForHost value) →
      eraseValue B h lst value = none) ∧
    (¬ (h (B.nodeForHost value)).list_sentinel_ = some (B.nodeForHost value) →
      ¬ (h (B.nodeForHost value)).list_sentinel_ = some lst.sentinel_ →
      eraseValue B h lst value = none) ∧
    (chainOk h s (l ++ B.nodeForHost value :: r) → ¬ k = 0 →
      eraseValue B h ⟨s, k⟩ value =
        some (removedHeap h (B.nodeForHost value) (r.headD s)
                ((s :: l).getLast (List.cons_ne_nil s l)), ⟨s, k - 1⟩) ∧
      chainOk (removedHeap h (B.nodeForHost value) (r.headD s)
                ((s :: l).getLast (List.cons_ne_nil s l))) s (l ++ r)) := by
  refine ⟨?_, ?_, ?_, ?_, ?_, ?_⟩
  · intro h1
    simp [eraseIter, h1]
  · intro h1 h2
    unfold eraseIter
    rw [if_neg h1, if_pos h2]
  · intro hc hk
    exact eraseIter_spec h s k l r v hc hk
  · intro h1
    simp [eraseValue, h1]
  · intro h1 h2
    unfold eraseValue
    rw [if_neg h1, if_pos h2]
  · intro hc hk
    exact eraseValue_spec B h s k l r value hc hk

/-- Witness for C7: on `exHeap1`, erasing position 0 (the sentinel) is
fatal, erasing node 1 through a list with a different sentinel is fatal,
erasing node 1 from its own list succeeds with size 0, and erasing the
value whose node is the sentinel is fatal. -/
theorem C7_spec_witness :
    eraseIter exHeap1 ⟨0, 1⟩ 0 = none ∧
    eraseIter exHeap1 ⟨5, 1⟩ 1 = none ∧
    (eraseIter exHeap1 ⟨0, 1⟩ 1 = some (removedHeap exHeap1 1 0 0, ⟨0, 0⟩) ∧
      chainOk (removedHeap exHeap1 1 0 0) 0 []) ∧
    eraseValue defaultBridge exHeap1 ⟨0, 1⟩ 0 = none :=
  ⟨(C7_spec defaultBridge exHeap1 ⟨0, 1⟩ 0 0 1 [] [] 1 0).1 (by decide),
   (C7_spec defaultBridge exHeap1 ⟨5, 1⟩ 1 0 1 [] [] 1 0).2.1 (by decide) (by decide),
   (C7_spec defaultBridge exHeap1 ⟨0, 1⟩ 1 0 1 [] [] 1 0).2.2.1 (by decide) (by decide),
   (C7_spec defaultBridge exHeap1 ⟨0, 1⟩ 1 0 1 [] [] 1 0).2.2.2.1 (by decide)⟩

end berrydb

namespace berrydb

/-- A heap holding one list with sentinel 0 and member nodes 1, 2 in order;
all other nodes detached. -/
def exHeap2 : Heap := fun n =>
  if n = 0 then ⟨some 1, some 2, some 0⟩
  else if n = 1 then ⟨some 2, some 0, some 0⟩
  else if n = 2 then ⟨some 0, some 1, some 0⟩
  else detachedNode

/-- C4: for every list state, forward iteration from `begin()` to `end()`
collects the host values in list order, and backward iteration from the
last position back to `begin()` collects exactly the reverse sequence. -/
theorem C4_spec (B : Bridge) (h : Heap) (s : NodeId) (k : Nat)
    (ns : List NodeId) (hc : chainOk h s ns) :
    (∃ b, beginIter h ⟨s, k⟩ = some b ∧
      traverseFwd B h (ns.length + 1) b (endIter ⟨s, k⟩) =
        some (ns.map B.hostForNode)) ∧
    (ns ≠ [] → ∃ lastp b, decIter h (endIter ⟨s, k⟩) = some lastp ∧
      beginIter h ⟨s, k⟩ = some b ∧
      traverseBwd B h ns.length lastp b = some ((ns.map B.hostForNode).reverse)) := by
  obtain ⟨hnd, hss, hmem, hch⟩ := hc
  have hc' : chainOk h s ns := ⟨hnd, hss, hmem, hch⟩
  have hsnotin : s ∉ ns := (List.nodup_cons.mp hnd).1
  have hfacts : ∀ n ∈ ns, (h n).list_sentinel_ = some s ∧ n ≠ s :=
    fun n hn => ⟨hmem n hn, fun e => hsnotin (e ▸ hn)⟩
  have hcht : List.Chain' (link h) (ns ++ [s]) := by
    have h2 : List.Chain' (link h) (s :: (ns ++ [s])) := by simpa using hch
    exact h2.tail
  constructor
  · exact ⟨ns.headD s, beginIter_chainOk h s k ns hc',
      traverseFwd_go B h s ns hcht hfacts⟩
  · intro hne
    have hgl : (s :: ns).getLast (List.cons_ne_nil s ns) = ns.getLast hne :=
      List.getLast_cons hne
    have hlast_mem : ns.getLast hne ∈ ns := List.getLast_mem hne
    refine ⟨ns.getLast hne, ns.headD s, ?_, beginIter_chainOk h s k ns hc', ?_⟩
    · apply decIter_eval
      · rw [show endIter ⟨s, k⟩ = s from rfl, nodePrev_chainOk h s ns hc', hgl]
      · have hsent := hmem _ hlast_mem
        rw [hsent]
        intro e
        injection e with e2
        exact (hfacts _ hlast_mem).2 e2.symm
    · have hvs_ne : ns.reverse ≠ [] := by simpa using hne
      have hchns : List.Chain' (link h) ns := (List.chain'_append.mp hcht).1
      have hchr : List.Chain' (rlink h) ns.reverse :=
        chain'_link_of_rlink_reverse ns hchns
      have hfr : ∀ n ∈ ns.reverse, (h n).list_sentinel_ = some s ∧ n ≠ s :=
        fun n hn => hfacts n (List.mem_reverse.mp hn)
      have hndr : ns.reverse.Nodup := by
        rw [List.nodup_reverse]
        exact (List.nodup_cons.mp hnd).2
      have hgo := traverseBwd_go B h s ns.reverse hvs_ne hchr hfr hndr
      have e1 : ns.reverse.length = ns.length := by simp
      have e2 : ns.reverse.head hvs_ne = ns.getLast hne := List.head_reverse hvs_ne
      have e3 : ns.reverse.getLast hvs_ne = ns.head hne := List.getLast_reverse hvs_ne
      have e4 : ns.headD s = ns.head hne := by
        cases ns with
        | nil => exact absurd rfl hne
        | cons c t => rfl
      rw [e1, e2, e3] at hgo
      rw [e4, hgo]
      congr 1
      simp

/-- Witness for C4: on the two-element list of `exHeap2`, forward iteration
yields 1, 2 and backward iteration from the last position yields 2, 1. -/
theorem C4_spec_witness :
    (∃ b, beginIter exHeap2 ⟨0, 5⟩ = some b ∧
      traverseFwd defaultBridge exHeap2 3 b (endIter ⟨0, 5⟩) = some [1, 2]) ∧
    (∃ lastp b, decIter exHeap2 (endIter ⟨0, 5⟩) = some lastp ∧
      beginIter exHeap2 ⟨0, 5⟩ = some b ∧
      traverseBwd defaultBridge exHeap2 2 lastp b = some [2, 1]) :=
  ⟨(C4_spec defaultBridge exHeap2 0 5 [1, 2] (by decide)).1,
   (C4_spec defaultBridge exHeap2 0 5 [1, 2] (by decide)).2 (by decide)⟩

end berrydb

namespace berrydb

/-! ### Move-construction machinery -/

theorem walkRelabel_succ (newS oldS : NodeId) (fuel : Nat) (h : Heap) (node : NodeId) :
    walkRelabel newS oldS (fuel + 1) h node =
      if node = newS then some h
      else if (h node).list_sentinel_ = some node then none
      else if ¬ (h node).list_sentinel_ = some oldS then none
      else match (h node).next_, (h node).prev_ with
        | some nx, some _ =>
            walkRelabel newS oldS fuel (setSentinel h node (some newS)) nx
        | _, _ => none := rfl

theorem chain'_nlink_mono {h h' : Heap} :
    ∀ (l : List NodeId),
      (∀ a ∈ l.dropLast, (h' a).next_ = (h a).next_) →
      List.Chain' (nlink h) l → List.Chain' (nlink h') l
  | [], _, _ => List.chain'_nil
  | [a], _, _ => List.chain'_singleton a
  | a :: b :: t, hn, hc => by
    rw [List.chain'_cons] at hc ⊢
    refine ⟨?_, ?_⟩
    · show (h' a).next_ = some b
      rw [hn a (by rw [List.dropLast_cons₂]; exact List.mem_cons_self a _)]
      exact hc.1
    · refine chain'_nlink_mono (b :: t) (fun x hx => hn x ?_) hc.2
      rw [List.dropLast_cons₂]
      exact List.mem_cons_of_mem a hx

/-- The relabelling walk from the head of a nodup segment whose forward
links end at the new sentinel rewrites exactly the segment members'
back-references and nothing else. -/
theorem walkRelabel_spec (newS oldS : NodeId) :
    ∀ (seg : List NodeId) (h : Heap),
      List.Chain' (nlink h) (seg ++ [newS]) →
      (∀ n ∈ seg, (h n).list_sentinel_ = some oldS ∧ n ≠ oldS ∧ n ≠ newS ∧
        ∃ pv, (h n).prev_ = some pv) →
      seg.Nodup →
      walkRelabel newS oldS (seg.length + 1) h (seg.headD newS) =
        some (fun n => if n ∈ seg then
          { h n with list_sentinel_ := some newS } else h n)
  | [], h, _, _, _ => by
    show walkRelabel newS oldS 1 h newS = _
    rw [walkRelabel_succ, if_pos rfl]
    congr 1
  | c :: seg', h, hch, hfacts, hnd => by
    obtain ⟨hcs, hco, hcn, pv, hpv⟩ := hfacts c (List.mem_cons_self c seg')
    have hch1 := List.chain'_cons'.mp hch
    have hnx : (h c).next_ = some (seg'.headD newS) := by
      have hy : seg'.headD newS ∈ (seg' ++ [newS]).head? := by
        rw [head?_append_singleton]
        exact rfl
      exact hch1.1 _ hy
    have hfuel : (c :: seg').length + 1 = seg'.length + 1 + 1 := by simp
    show walkRelabel newS oldS ((c :: seg').length + 1) h c = _
    rw [hfuel, walkRelabel_succ, if_neg hcn,
      if_neg (fun e => hco (by rw [hcs] at e; injection e with e2; exact e2.symm)),
      if_neg (fun e => e hcs)]
    have hcnotin : c ∉ seg' := (List.nodup_cons.mp hnd).1
    have hIH := walkRelabel_spec newS oldS seg' (setSentinel h c (some newS))
      (by
        refine chain'_nlink_mono _ (fun a ha => ?_)
          ((List.chain'_cons'.mp hch).2)
        by_cases hac : a = c
        · subst hac
          simp [setSentinel, hset]
        · simp [setSentinel, hset, hac])
      (by
        intro n hn
        have hnc : n ≠ c := fun e => hcnotin (e ▸ hn)
        obtain ⟨f1, f2, f3, pv2, f4⟩ := hfacts n (List.mem_cons_of_mem c hn)
        refine ⟨?_, f2, f3, pv2, ?_⟩
        · simp [setSentinel, hset, hnc, f1]
        · simp [setSentinel, hset, hnc, f4])
      ((List.nodup_cons.mp hnd).2)
    simp only [hnx, hpv]
    rw [hIH]
    congr 1
    funext n
    by_cases hnc : n = c
    · subst hnc
      simp [hcnotin, setSentinel, hset]
    · by_cases hns : n ∈ seg'
      · simp [hns, hnc, setSentinel, hset]
      · simp [hns, hnc, setSentinel, hset]

/-- The heap right after the pointer relinking phase of the sentinel move
constructor (before the validated relabelling walk): the new sentinel at
`newS` takes over the chain endpoints `hd` and `lastN`, the old sentinel
`s` is self-linked, and nothing else changes. -/
def movedPreHeap (h : Heap) (newS s hd lastN : NodeId) : Heap := fun n =>
  if n = newS then ⟨some hd, some lastN, some newS⟩
  else if n = s then { h n with next_ := some s, prev_ := some s }
  else
    let b1 := h n
    let b2 := if n = hd then { b1 with prev_ := some newS } else b1
    if n = lastN then { b2 with next_ := some newS } else b2

theorem movedPre_at_newS (h : Heap) (newS s hd lastN : NodeId) :
    movedPreHeap h newS s hd lastN newS = ⟨some hd, some lastN, some newS⟩ := by
  simp [movedPreHeap]

theorem movedPre_at_s (h : Heap) (newS s hd lastN : NodeId) (hsn : s ≠ newS) :
    movedPreHeap h newS s hd lastN s =
      { h s with next_ := some s, prev_ := some s } := by
  simp [movedPreHeap, hsn]

theorem movedPre_sent_of_ne (h : Heap) (newS s hd lastN n : NodeId)
    (h1 : n ≠ newS) (h2 : n ≠ s) :
    (movedPreHeap h newS s hd lastN n).list_sentinel_ = (h n).list_sentinel_ := by
  by_cases e1 : n = hd
  · subst e1
    by_cases e2 : n = lastN
    · subst e2; simp [movedPreHeap, h1, h2]
    · simp [movedPreHeap, h1, h2, e2]
  · by_cases e2 : n = lastN
    · subst e2; simp [movedPreHeap, h1, h2, e1]
    · simp [movedPreHeap, h1, h2, e1, e2]

theorem movedPre_next_of_ne (h : Heap) (newS s hd lastN n : NodeId)
    (h1 : n ≠ newS) (h2 : n ≠ s) (h3 : n ≠ lastN) :
    (movedPreHeap h newS s hd lastN n).next_ = (h n).next_ := by
  by_cases e1 : n = hd
  · subst e1; simp [movedPreHeap, h1, h2, h3]
  · simp [movedPreHeap, h1, h2, h3, e1]

theorem movedPre_prev_of_ne (h : Heap) (newS s hd lastN n : NodeId)
    (h1 : n ≠ newS) (h2 : n ≠ s) (h3 : n ≠ hd) :
    (movedPreHeap h newS s hd lastN n).prev_ = (h n).prev_ := by
  by_cases e1 : n = lastN
  · subst e1; simp [movedPreHeap, h1, h2, h3]
  · simp [movedPreHeap, h1, h2, h3, e1]

theorem movedPre_prev_hd (h : Heap) (newS s hd lastN : NodeId)
    (h1 : hd ≠ newS) (h2 : hd ≠ s) :
    (movedPreHeap h newS s hd lastN hd).prev_ = some newS := by
  by_cases e1 : hd = lastN
  · subst e1; simp [movedPreHeap, h1, h2]
  · simp [movedPreHeap, h1, h2, e1]

theorem movedPre_next_lastN (h : Heap) (newS s hd lastN : NodeId)
    (h1 : lastN ≠ newS) (h2 : lastN ≠ s) :
    (movedPreHeap h newS s hd lastN lastN).next_ = some newS := by
  by_cases e1 : lastN = hd
  · subst e1; simp [movedPreHeap, h1, h2]
  · simp [movedPreHeap, h1, h2, e1]

theorem movedPre_frame (h : Heap) (newS s hd lastN n : NodeId)
    (h1 : n ≠ newS) (h2 : n ≠ s) (h3 : n ≠ hd) (h4 : n ≠ lastN) :
    movedPreHeap h newS s hd lastN n = h n := by
  simp [movedPreHeap, h1, h2, h3, h4]

end berrydb

namespace berrydb

/-- Computing the non-empty branch of the sentinel move constructor: under
the ring-endpoint facts, the relinking phase produces exactly
`movedPreHeap` and then runs the relabelling walk from the old first
node `hd`. -/
theorem moveSentinelNode_eq (h : Heap) (newS s hd lastN : NodeId) (fuel : Nat)
    (hss : (h s).list_sentinel_ = some s) (hsne : ¬ newS = s)
    (hnx : (h s).next_ = some hd) (hdp : (h hd).prev_ = some s)
    (hds : ¬ hd = s) (hdn : hd ≠ newS)
    (hpv : (h s).prev_ = some lastN) (hln : lastN ≠ newS) (hls : lastN ≠ s) :
    moveSentinelNode h newS s fuel =
      walkRelabel newS s fuel (movedPreHeap h newS s hd lastN) hd := by
  have hsne' : s ≠ newS := fun e => hsne e.symm
  have hdn' : newS ≠ hd := fun e => hdn e.symm
  have hln' : newS ≠ lastN := fun e => hln e.symm
  have hds' : ¬ s = hd := fun e => hds e.symm
  have hls' : ¬ s = lastN := fun e => hls e.symm
  have g0 : setSentinel h newS (some newS) s = h s := by
    simp [setSentinel, hset, hsne']
  have g2 : nodeNext (setSentinel h newS (some newS)) s = some hd := by
    apply nodeNext_eval
    · rw [g0, hss]
      simp
    · rw [g0, hnx]
    · have g1 : setSentinel h newS (some newS) hd = h hd := by
        simp [setSentinel, hset, hdn]
      rw [g1, hdp]
  have gA : (setSentinel h newS (some newS) s).next_ = some hd := by rw [g0, hnx]
  unfold moveSentinelNode
  simp only []
  rw [if_neg (fun e => e (by rw [g0]; exact hss))]
  simp only [g2]
  rw [if_neg hds]
  simp only [gA]
  have gB : (setNext (setNext (setSentinel h newS (some newS)) newS (some hd)) s
      (some s) s).prev_ = some lastN := by
    simp [setNext, setSentinel, hset, hsne', hpv]
  simp only [gB]
  have gC : (setPrev (setPrev (setNext (setNext (setSentinel h newS (some newS))
      newS (some hd)) s (some s)) newS (some lastN)) s (some s) newS).next_ =
      some hd := by
    simp [setPrev, setNext, setSentinel, hset, hsne]
  have gD : (setPrev (setPrev (setNext (setNext (setSentinel h newS (some newS))
      newS (some hd)) s (some s)) newS (some lastN)) s (some s) newS).prev_ =
      some lastN := by
    simp [setPrev, setNext, setSentinel, hset, hsne]
  simp only [gC, gD]
  have gE : (setNext (setPrev (setPrev (setPrev (setNext (setNext
      (setSentinel h newS (some newS)) newS (some hd)) s (some s)) newS
      (some lastN)) s (some s)) hd (some newS)) lastN (some newS) newS).next_ =
      some hd := by
    simp [setPrev, setNext, setSentinel, hset, hsne, hdn', hln']
  simp only [gE]
  congr 1
  funext n
  by_cases h1 : n = newS
  · subst h1
    simp [setPrev, setNext, setSentinel, hset, movedPreHeap, hsne, hdn', hln']
  · by_cases h2 : n = s
    · subst h2
      simp [setPrev, setNext, setSentinel, hset, movedPreHeap, hsne', hds', hls']
    · by_cases h3 : n = hd
      · subst h3
        by_cases h4 : n = lastN
        · subst h4
          simp [setPrev, setNext, setSentinel, hset, movedPreHeap, h1, h2]
        · simp [setPrev, setNext, setSentinel, hset, movedPreHeap, h1, h2, h4]
      · by_cases h4 : n = lastN
        · subst h4
          simp [setPrev, setNext, setSentinel, hset, movedPreHeap, h1, h2, h3]
        · simp [setPrev, setNext, setSentinel, hset, movedPreHeap, h1, h2, h3, h4]

end berrydb

namespace berrydb

/-- Full specification of move-constructing a list from a non-empty source:
the new list at `newS` carries the same member chain in the same order with
every back-reference rewritten, and the source sentinel is left self-linked
(an empty, still-usable list). -/
theorem moveList_spec (h : Heap) (s newS : NodeId) (k : Nat) (ns : List NodeId)
    (hc : chainOk h s ns) (hne : ns ≠ []) (hnewS : newS ∉ s :: ns) :
    ∃ h', moveList h ⟨s, k⟩ newS (ns.length + 1) = some (h', ⟨newS, k⟩, ⟨s, 0⟩) ∧
      chainOk h' newS ns ∧
      (∀ n ∈ ns, (h' n).list_sentinel_ = some newS) ∧
      h' s = sentinelNode s ∧
      chainOk h' s [] := by
  obtain ⟨hnd, hss, hmem, hch⟩ := hc
  have hsnotin : s ∉ ns := (List.nodup_cons.mp hnd).1
  have hnsnd : ns.Nodup := (List.nodup_cons.mp hnd).2
  have hnewS_s : newS ≠ s := fun e => hnewS (e.symm ▸ List.mem_cons_self s ns)
  have hnewS_ns : newS ∉ ns := fun hx => hnewS (List.mem_cons_of_mem s hx)
  have e4 : ns.headD s = ns.head hne := by
    cases ns with
    | nil => exact absurd rfl hne
    | cons c t => rfl
  have e5 : ns.headD newS = ns.headD s := by
    cases ns with
    | nil => exact absurd rfl hne
    | cons c t => rfl
  set hd := ns.headD s with hhd
  set lastN := ns.getLast hne with hlastN
  have hhd_mem : hd ∈ ns := by
    rw [e4]
    exact List.head_mem hne
  have hlast_mem : lastN ∈ ns := hlastN ▸ List.getLast_mem hne
  have hhd_s : ¬ hd = s := fun e => hsnotin (e ▸ hhd_mem)
  have hlast_s : lastN ≠ s := fun e => hsnotin (e ▸ hlast_mem)
  have hhd_n : hd ≠ newS := fun e => hnewS_ns (e ▸ hhd_mem)
  have hlast_n : lastN ≠ newS := fun e => hnewS_ns (e ▸ hlast_mem)
  have hhd_tail : hd ∉ ns.tail := by
    rw [hhd]
    cases ns with
    | nil => exact absurd rfl hne
    | cons c t => exact (List.nodup_cons.mp hnsnd).1
  have hring : List.Chain' (link h) (s :: (ns ++ [s])) := by simpa using hch
  have hlk1 : link h s hd := by
    rw [hhd]
    exact (List.chain'_cons'.mp hring).1 _ (by rw [head?_append_singleton]; exact rfl)
  have hlk2 : link h lastN s := by
    have hch' : List.Chain' (link h) ((s :: ns) ++ [s]) := by simpa using hch
    rw [List.chain'_append] at hch'
    have hgl : (s :: ns).getLast (List.cons_ne_nil s ns) = lastN := by
      rw [hlastN]
      exact List.getLast_cons hne
    have hg := hch'.2.2 _
      (by rw [List.getLast?_eq_getLast_of_ne_nil (List.cons_ne_nil s ns)]; exact rfl)
      s (by exact rfl)
    rw [hgl] at hg
    exact hg
  have hmv := moveSentinelNode_eq h newS s hd lastN (ns.length + 1) hss
    (fun e => hnewS_s e) hlk1.1 hlk1.2 hhd_s hhd_n hlk2.2 hlast_n hlast_s
  set hp := movedPreHeap h newS s hd lastN with hhp
  have hchns : List.Chain' (link h) ns := by
    have hcht : List.Chain' (link h) (ns ++ [s]) := hring.tail
    exact (List.chain'_append.mp hcht).1
  have hwalkpre : List.Chain' (nlink hp) (ns ++ [newS]) := by
    have hnl : List.Chain' (nlink h) ns :=
      List.Chain'.imp (fun a b hab => hab.1) hchns
    have hnl2 : List.Chain' (nlink hp) ns := by
      refine chain'_nlink_mono ns (fun a ha => ?_) hnl
      have ha_ns : a ∈ ns := List.dropLast_subset _ ha
      have h1 : a ≠ newS := fun e => hnewS_ns (e ▸ ha_ns)
      have h2 : a ≠ s := fun e => hsnotin (e ▸ ha_ns)
      have h3 : a ≠ lastN := by
        intro e
        exact (hlastN ▸ getLast_not_mem_dropLast ns hne hnsnd) (e ▸ ha)
      exact movedPre_next_of_ne h newS s hd lastN a h1 h2 h3
    rw [List.chain'_append]
    refine ⟨hnl2, List.chain'_singleton newS, ?_⟩
    intro x hx y hy
    have hx2 : x = lastN := by
      rw [List.getLast?_eq_getLast_of_ne_nil hne] at hx
      have := hx.symm
      simp only [Option.mem_def, Option.some.injEq] at hx
      rw [← hx, hlastN]
    have hy2 : y = newS := by simpa using hy.symm
    rw [hx2, hy2]
    show (hp lastN).next_ = some newS
    exact movedPre_next_lastN h newS s hd lastN hlast_n hlast_s
  have hwfacts : ∀ n ∈ ns, (hp n).list_sentinel_ = some s ∧ n ≠ s ∧ n ≠ newS ∧
      ∃ pv2, (hp n).prev_ = some pv2 := by
    intro n hn
    have h1 : n ≠ newS := fun e => hnewS_ns (e ▸ hn)
    have h2 : n ≠ s := fun e => hsnotin (e ▸ hn)
    refine ⟨?_, h2, h1, ?_⟩
    · rw [movedPre_sent_of_ne h newS s hd lastN n h1 h2]
      exact hmem n hn
    · by_cases h3 : n = hd
      · subst h3
        exact ⟨newS, movedPre_prev_hd h newS s hd lastN h1 h2⟩
      · have h4 := chain'_prev_total (s :: (ns ++ [s])) hring n
          (List.mem_append.mpr (Or.inl hn))
        obtain ⟨c, hc2⟩ := h4
        refine ⟨c, ?_⟩
        rw [movedPre_prev_of_ne h newS s hd lastN n h1 h2 h3]
        exact hc2
  have hwalk := walkRelabel_spec newS s ns hp hwalkpre hwfacts hnsnd
  rw [e5] at hwalk
  refine ⟨fun n => if n ∈ ns then { hp n with list_sentinel_ := some newS } else hp n,
    ?_, ?_, ?_, ?_, ?_⟩
  · unfold moveList
    rw [show (⟨s, k⟩ : LinkedList).sentinel_ = s from rfl, hmv, hwalk]
    rfl
  · -- chainOk of the new list
    refine ⟨List.nodup_cons.mpr ⟨hnewS_ns, hnsnd⟩, ?_, ?_, ?_⟩
    · simp [hnewS_ns, hhp, movedPreHeap]
    · intro n hn
      simp [hn]
    · have hA1 : List.Chain' (link (fun n => if n ∈ ns then
          { hp n with list_sentinel_ := some newS } else hp n)) ns := by
        refine chain'_link_mono ns (fun a ha => ?_) (fun b hb => ?_) hchns
        · have ha_ns : a ∈ ns := List.dropLast_subset _ ha
          have h1 : a ≠ newS := fun e => hnewS_ns (e ▸ ha_ns)
          have h2 : a ≠ s := fun e => hsnotin (e ▸ ha_ns)
          have h3 : a ≠ lastN := by
            intro e
            exact (hlastN ▸ getLast_not_mem_dropLast ns hne hnsnd) (e ▸ ha)
          show (if a ∈ ns then { hp a with list_sentinel_ := some newS } else hp a).next_
            = (h a).next_
          rw [if_pos ha_ns]
          exact movedPre_next_of_ne h newS s hd lastN a h1 h2 h3
        · have hb_ns : b ∈ ns := List.mem_of_mem_tail hb
          have h1 : b ≠ newS := fun e => hnewS_ns (e ▸ hb_ns)
          have h2 : b ≠ s := fun e => hsnotin (e ▸ hb_ns)
          have h3 : b ≠ hd := fun e => hhd_tail (e ▸ hb)
          show (if b ∈ ns then { hp b with list_sentinel_ := some newS } else hp b).prev_
            = (h b).prev_
          rw [if_pos hb_ns]
          exact movedPre_prev_of_ne h newS s hd lastN b h1 h2 h3
      have hA2next : (if newS ∈ ns then { hp newS with list_sentinel_ := some newS }
          else hp newS).next_ = some hd := by
        rw [if_neg hnewS_ns, hhp, movedPre_at_newS]
      have hA2prev : (if hd ∈ ns then { hp hd with list_sentinel_ := some newS }
          else hp hd).prev_ = some newS := by
        rw [if_pos hhd_mem]
        show (hp hd).prev_ = some newS
        exact movedPre_prev_hd h newS s hd lastN hhd_n (fun e => hhd_s e)
      have hA3next : (if lastN ∈ ns then { hp lastN with list_sentinel_ := some newS }
          else hp lastN).next_ = some newS := by
        rw [if_pos hlast_mem]
        show (hp lastN).next_ = some newS
        exact movedPre_next_lastN h newS s hd lastN hlast_n hlast_s
      have hA3prev : (if newS ∈ ns then { hp newS with list_sentinel_ := some newS }
          else hp newS).prev_ = some lastN := by
        rw [if_neg hnewS_ns, hhp, movedPre_at_newS]
      rw [show newS :: ns ++ [newS] = (newS :: ns) ++ [newS] from rfl,
        List.chain'_append]
      refine ⟨?_, List.chain'_singleton newS, ?_⟩
      · rw [List.chain'_cons']
        refine ⟨?_, hA1⟩
        intro y hy
        have hy2 : y = hd := by
          rw [List.head?_eq_head hne] at hy
          have hy3 : y = ns.head hne := by simpa using hy.symm
          rw [hy3, e4]
        rw [hy2]
        exact ⟨hA2next, hA2prev⟩
      · intro x hx y hy
        have hx2 : x = lastN := by
          rw [List.getLast?_eq_getLast_of_ne_nil (List.cons_ne_nil newS ns),
            List.getLast_cons hne] at hx
          have hx3 := hx.symm
          simp only [Option.mem_def, Option.some.injEq] at hx
          rw [← hx, hlastN]
        have hy2 : y = newS := by simpa using hy.symm
        rw [hx2, hy2]
        exact ⟨hA3next, hA3prev⟩
  · intro n hn
    simp [hn]
  · have hsnewS : ¬ s = newS := fun e => hnewS_s e.symm
    simp [hsnotin, hhp, movedPreHeap, hsnewS, sentinelNode, hss]
  · have hsnewS : ¬ s = newS := fun e => hnewS_s e.symm
    refine ⟨by simp, ?_, by simp, ?_⟩
    · simp [hsnotin, hhp, movedPreHeap, hsnewS, hss]
    · refine List.chain'_cons.mpr ⟨?_, List.chain'_singleton s⟩
      constructor
      · show (if s ∈ ns then { hp s with list_sentinel_ := some newS } else hp s).next_
          = some s
        simp [hsnotin, hhp, movedPreHeap, hsnewS]
      · show (if s ∈ ns then { hp s with list_sentinel_ := some newS } else hp s).prev_
          = some s
        simp [hsnotin, hhp, movedPreHeap, hsnewS]

end berrydb

namespace berrydb

/-- C2: move-constructing a new list from a non-empty source transfers the
entire chain — the new list holds the same nodes in the same order and
carries the source's former `size_`; the source becomes empty (`size_ = 0`,
sentinel self-linked, `empty()` true); and every moved node's validated
`list_sentinel_` back-reference now points at the new list's sentinel. -/
theorem C2_spec (h : Heap) (s newS : NodeId) (k : Nat) (ns : List NodeId)
    (hc : chainOk h s ns) (hne : ns ≠ []) (hnewS : newS ∉ s :: ns) :
    ∃ h', moveList h ⟨s, k⟩ newS (ns.length + 1) = some (h', ⟨newS, k⟩, ⟨s, 0⟩) ∧
      chainOk h' newS ns ∧
      (∀ n ∈ ns, (h' n).list_sentinel_ = some newS) ∧
      h' s = sentinelNode s ∧
      chainOk h' s [] ∧
      emptyB h' ⟨s, 0⟩ = some true := by
  obtain ⟨h', hmv, hok, hsent, hsrc, hsrcOk⟩ := moveList_spec h s newS k ns hc hne hnewS
  refine ⟨h', hmv, hok, hsent, hsrc, hsrcOk, ?_⟩
  have he := emptyB_chainOk h' s 0 [] hsrcOk
  simpa using he

/-- Witness for C2: moving the one-element list of `exHeap1` (sentinel 0,
member 1) to a new sentinel at address 5. -/
theorem C2_spec_witness :
    ∃ h', moveList exHeap1 ⟨0, 1⟩ 5 2 = some (h', ⟨5, 1⟩, ⟨0, 0⟩) ∧
      chainOk h' 5 [1] ∧
      (∀ n ∈ ([1] : List NodeId), (h' n).list_sentinel_ = some 5) ∧
      h' 0 = sentinelNode 0 ∧
      chainOk h' 0 [] ∧
      emptyB h' ⟨0, 0⟩ = some true :=
  C2_spec exHeap1 0 5 1 [1] (by decide) (by decide) (by decide)

/-- C10: move-constructing from an empty source yields an empty destination
(`size_ = 0`, `begin() = end()`, sentinel self-linked) and leaves the
source's sentinel self-linked with `size_ = 0`, so the moved-from list
remains a valid empty list. -/
theorem C10_spec (h : Heap) (s newS : NodeId) (fuel : Nat)
    (hc : chainOk h s []) (hne : newS ≠ s) :
    ∃ h', moveList h ⟨s, 0⟩ newS fuel = some (h', ⟨newS, 0⟩, ⟨s, 0⟩) ∧
      h' newS = sentinelNode newS ∧
      h' s = h s ∧
      chainOk h' newS [] ∧
      chainOk h' s [] ∧
      emptyB h' ⟨newS, 0⟩ = some true ∧
      emptyB h' ⟨s, 0⟩ = some true ∧
      beginIter h' ⟨newS, 0⟩ = some (endIter ⟨newS, 0⟩) := by
  obtain ⟨hnd, hss, hmem, hch⟩ := hc
  have hchlist : List.Chain' (link h) [s, s] := by simpa using hch
  rw [List.chain'_cons] at hchlist
  have hnx : (h s).next_ = some s := hchlist.1.1
  have hpv : (h s).prev_ = some s := hchlist.1.2
  have hsne' : s ≠ newS := fun e => hne e.symm
  have g0 : setSentinel h newS (some newS) s = h s := by
    simp [setSentinel, hset, hsne']
  have g2 : nodeNext (setSentinel h newS (some newS)) s = some s := by
    apply nodeNext_eval
    · rw [g0, hss]
      simp
    · rw [g0, hnx]
    · rw [g0, hpv]
  set h2 := setNext (setPrev (setSentinel h newS (some newS)) newS (some newS))
    newS (some newS) with hh2
  have hokN : chainOk h2 newS [] := by
    refine ⟨by simp, ?_, by simp, ?_⟩
    · simp [hh2, setNext, setPrev, setSentinel, hset]
    · refine List.chain'_cons.mpr ⟨⟨?_, ?_⟩, List.chain'_singleton newS⟩ <;>
        simp [hh2, setNext, setPrev, setSentinel, hset]
  have hokS : chainOk h2 s [] := by
    refine ⟨by simp, ?_, by simp, ?_⟩
    · simp [hh2, setNext, setPrev, setSentinel, hset, hsne', hss]
    · refine List.chain'_cons.mpr ⟨⟨?_, ?_⟩, List.chain'_singleton s⟩ <;>
        simp [hh2, setNext, setPrev, setSentinel, hset, hsne', hnx, hpv]
  refine ⟨h2, ?_, ?_, ?_, hokN, hokS, ?_, ?_, ?_⟩
  · unfold moveList moveSentinelNode
    simp only []
    rw [if_neg (fun e => e (by rw [g0]; exact hss))]
    simp only [g2, if_true]
    rfl
  · apply node_eq_of_fields <;>
      simp [hh2, setNext, setPrev, setSentinel, hset, sentinelNode]
  · apply node_eq_of_fields <;>
      simp [hh2, setNext, setPrev, setSentinel, hset, hsne']
  · have he := emptyB_chainOk h2 newS 0 [] hokN
    simpa using he
  · have he := emptyB_chainOk h2 s 0 [] hokS
    simpa using he
  · have hb := beginIter_chainOk h2 newS 0 [] hokN
    simpa [endIter] using hb

end berrydb

namespace berrydb

/-- The chain invariant only reads the heap at the ring's nodes, so it is
stable under any heap change outside `s :: ns`. -/
theorem chainOk_of_agree (h h' : Heap) (s : NodeId) (ns : List NodeId)
    (hag : ∀ n ∈ s :: ns, h' n = h n) (hc : chainOk h s ns) : chainOk h' s ns := by
  obtain ⟨hnd, hss, hmem, hch⟩ := hc
  refine ⟨hnd, ?_, ?_, ?_⟩
  · rw [hag s (List.mem_cons_self s ns)]
    exact hss
  · intro n hn
    rw [hag n (List.mem_cons_of_mem s hn)]
    exact hmem n hn
  · refine chain'_link_mono _ (fun a ha => ?_) (fun b hb => ?_) hch
    · have ha2 : a ∈ s :: ns := by
        have h2 : (s :: ns ++ [s]).dropLast = s :: ns := by
          rw [show s :: ns ++ [s] = (s :: ns) ++ [s] from rfl, List.dropLast_concat]
        rw [h2] at ha
        exact ha
      rw [hag a ha2]
    · have hb2 : b ∈ s :: ns := by
        have h2 : (s :: ns ++ [s]).tail = ns ++ [s] := rfl
        rw [h2] at hb
        rcases List.mem_append.mp hb with hx | hx
        · exact List.mem_cons_of_mem s hx
        · have : b = s := by simpa using hx
          exact this ▸ List.mem_cons_self s ns
      rw [hag b hb2]

/-- C8: for a host embedded in two independently-bridged lists, inserting
the host into list 1 leaves list 2 untouched — list 2's whole chain (hence
the host's membership and position there) and the host's list-2 node are
unchanged — and removing the host from list 1 likewise leaves list 2's
membership and position intact. -/
theorem C8_spec (B1 B2 : Bridge) (h : Heap) (s1 s2 : NodeId) (k1 : Nat)
    (l r ns2 : List NodeId) (e : Nat)
    (hB1 : B1.hostForNode (B1.nodeForHost e) = e)
    (hc2 : chainOk h s2 ns2)
    (hbne : B2.nodeForHost e ≠ B1.nodeForHost e)
    (hbring : B2.nodeForHost e ∉ s1 :: (l ++ r))
    (hdisj : ∀ n ∈ s2 :: ns2, n ∉ s1 :: (l ++ r) ∧ n ≠ B1.nodeForHost e) :
    (chainOk h s1 (l ++ r) → h (B1.nodeForHost e) = detachedNode →
      ∃ h', insert B1 h ⟨s1, k1⟩ (r.headD s1) e = some (h', ⟨s1, k1 + 1⟩) ∧
        chainOk h' s1 (l ++ B1.nodeForHost e :: r) ∧
        chainOk h' s2 ns2 ∧
        h' (B2.nodeForHost e) = h (B2.nodeForHost e)) ∧
    (chainOk h s1 (l ++ B1.nodeForHost e :: r) → ¬ k1 = 0 →
      ∃ h', eraseValue B1 h ⟨s1, k1⟩ e = some (h', ⟨s1, k1 - 1⟩) ∧
        chainOk h' s1 (l ++ r) ∧
        chainOk h' s2 ns2 ∧
        h' (B2.nodeForHost e) = h (B2.nodeForHost e)) := by
  have hposmem : r.headD s1 ∈ s1 :: (l ++ r) := by
    have hm := headD_mem_cons r s1
    rcases List.mem_cons.mp hm with e2 | e2
    · rw [e2]
      exact List.mem_cons_self s1 (l ++ r)
    · exact List.mem_cons_of_mem s1 (List.mem_append.mpr (Or.inr e2))
  have hpmem : (s1 :: l).getLast (List.cons_ne_nil s1 l) ∈ s1 :: (l ++ r) := by
    have hm := List.getLast_mem (List.cons_ne_nil s1 l)
    rcases List.mem_cons.mp hm with e2 | e2
    · rw [e2]
      exact List.mem_cons_self s1 (l ++ r)
    · exact List.mem_cons_of_mem s1 (List.mem_append.mpr (Or.inl e2))
  constructor
  · intro hc1 hdet
    obtain ⟨hins, hok1⟩ := insert_spec B1 h s1 k1 l r e hc1 hdet hB1
    refine ⟨_, hins, hok1, ?_, ?_⟩
    · refine chainOk_of_agree h _ s2 ns2 (fun n hn => ?_) hc2
      obtain ⟨hn1, hn2⟩ := hdisj n hn
      exact insAfterHeap_frame h _ _ _ s1 n hn2
        (fun e2 => hn1 (e2 ▸ hposmem)) (fun e2 => hn1 (e2 ▸ hpmem))
    · exact insAfterHeap_frame h _ _ _ s1 _ hbne
        (fun e2 => hbring (e2 ▸ hposmem)) (fun e2 => hbring (e2 ▸ hpmem))
  · intro hc1 hk
    obtain ⟨hers, hok1⟩ := eraseValue_spec B1 h s1 k1 l r e hc1 hk
    refine ⟨_, hers, hok1, ?_, ?_⟩
    · refine chainOk_of_agree h _ s2 ns2 (fun n hn => ?_) hc2
      obtain ⟨hn1, hn2⟩ := hdisj n hn
      exact removedHeap_frame h _ _ _ n hn2
        (fun e2 => hn1 (e2 ▸ hposmem)) (fun e2 => hn1 (e2 ▸ hpmem))
    · exact removedHeap_frame h _ _ _ _ hbne
        (fun e2 => hbring (e2 ▸ hposmem)) (fun e2 => hbring (e2 ▸ hpmem))

/-- Bridge of the first embedded node field: host `e` owns node `2 * e`. -/
def bridgeA : Bridge := ⟨fun e => 2 * e, fun n => n / 2⟩

/-- Bridge of the second embedded node field: host `e` owns node `2 * e + 1`. -/
def bridgeB : Bridge := ⟨fun e => 2 * e + 1, fun n => n / 2⟩

/-- Heap for the C8 witness, insert direction: list 1 (sentinel 0) empty,
list 2 (sentinel 1) holding host 5's second node (address 11); host 5's
first node (address 10) detached. -/
def exHeap8 : Heap := fun n =>
  if n = 0 then sentinelNode 0
  else if n = 1 then ⟨some 11, some 11, some 1⟩
  else if n = 11 then ⟨some 1, some 1, some 1⟩
  else detachedNode

/-- Heap for the C8 witness, erase direction: list 1 (sentinel 0) holds
host 5's first node (address 10); list 2 (sentinel 1) holds its second
node (address 11). -/
def exHeap8b : Heap := fun n =>
  if n = 0 then ⟨some 10, some 10, some 0⟩
  else if n = 10 then ⟨some 0, some 0, some 0⟩
  else if n = 1 then ⟨some 11, some 11, some 1⟩
  else if n = 11 then ⟨some 1, some 1, some 1⟩
  else detachedNode

/-- Witness for C8: host 5 with nodes 10 (list 1, via `bridgeA`) and 11
(list 2, via `bridgeB`); inserting into and erasing from list 1 leaves
list 2's chain and node 11 untouched. -/
theorem C8_spec_witness :
    (∃ h', insert bridgeA exHeap8 ⟨0, 0⟩ 0 5 = some (h', ⟨0, 1⟩) ∧
      chainOk h' 0 [10] ∧ chainOk h' 1 [11] ∧ h' 11 = exHeap8 11) ∧
    (∃ h', eraseValue bridgeA exHeap8b ⟨0, 1⟩ 5 = some (h', ⟨0, 0⟩) ∧
      chainOk h' 0 [] ∧ chainOk h' 1 [11] ∧ h' 11 = exHeap8b 11) :=
  ⟨(C8_spec bridgeA bridgeB exHeap8 0 1 0 [] [] [11] 5 (by decide) (by decide)
      (by decide) (by decide) (by decide)).1 (by decide) (by decide),
   (C8_spec bridgeA bridgeB exHeap8b 0 1 1 [] [] [11] 5 (by decide) (by decide)
      (by decide) (by decide) (by decide)).2 (by decide) (by decide)⟩

/-- Witness for C10: moving the empty freshly constructed list at sentinel
0 to a new sentinel at address 3. -/
theorem C10_spec_witness :
    ∃ h', moveList (freshHeap 0) ⟨0, 0⟩ 3 7 = some (h', ⟨3, 0⟩, ⟨0, 0⟩) ∧
      h' 3 = sentinelNode 3 ∧
      h' 0 = freshHeap 0 0 ∧
      chainOk h' 3 [] ∧
      chainOk h' 0 [] ∧
      emptyB h' ⟨3, 0⟩ = some true ∧
      emptyB h' ⟨0, 0⟩ = some true ∧
      beginIter h' ⟨3, 0⟩ = some (endIter ⟨3, 0⟩) :=
  C10_spec (freshHeap 0) 0 3 7 (by decide) (by decide)

end berrydb
